import Mathlib

/-!
Verification development for the GatherMate2 miner core
(`src/gathermate_miner_gui.py`).

The Python core is shallowly embedded:

* Python `float` percentages are modelled as exact rationals `ℚ`; the packed
  coordinate formula `math.floor((x/100)*10000+0.5)*1000000 +
  math.floor((y/100)*10000+0.5)*100` becomes `Int.floor` arithmetic on `ℚ`.
* Python `dict`s are modelled as association lists with Python's update
  semantics (`dset` keeps the first-insertion position of an existing key and
  overwrites its value, a fresh key is appended at the end); lookups are
  `dget`.
* Python strings are modelled as `List Char`; the two regular expressions that
  the code relies on (`\[(\d+)\]\s*=\s*(\d+|{[^{}]*})` inside
  `parse_lua_table`, and the section/settings patterns inside
  `merge_gathermate_data`) are implemented as explicit character-level
  matchers with exactly the leftmost / lazy / greedy behaviour of the
  originals.
* Mutation (`Coordinate.as_gatherer_coord` memoising `self.coord`, the
  `while` loop in `Aggregate.add` bumping `entry.coordinate.coord`) becomes
  explicit state passing; the unbounded `while` loop is run with
  `occupied.length + 1` units of fuel, which is proved sufficient for
  non-negative packed values (`resolveCoord_not_mem`).
-/

namespace GatherMate


/-! ### Association-list model of Python `dict`

`dset k v d` is Python `d[k] = v`: an existing key keeps its position in the
insertion order and gets the new value, a new key is appended at the end.
`dget k d` is `d.get(k)`. -/

def dset {K V : Type} [DecidableEq K] (k : K) (v : V) : List (K × V) → List (K × V)
  | [] => [(k, v)]
  | (k1, v1) :: rest => if k1 = k then (k, v) :: rest else (k1, v1) :: dset k v rest

def dget {K V : Type} [DecidableEq K] (k : K) : List (K × V) → Option V
  | [] => none
  | (k1, v1) :: rest => if k1 = k then some v1 else dget k rest

/-- Keys of an association list. -/
def dkeys {K V : Type} (d : List (K × V)) : List K := d.map Prod.fst

/-! ### Decimal digits

Python renders integers with `str`/f-strings and reads them back with
`int`; both sides of the embedding use the printer `natDigits` and the
reader `digitsVal`. -/

def digitChar (d : ℕ) : Char := Char.ofNat (48 + d)

def isDigit (c : Char) : Bool := 48 ≤ c.toNat && c.toNat ≤ 57

/-- Digits of a positive number, least significant first, with structural
fuel (`n` itself is enough fuel since `n / 10 < n`). -/
def natDigitsRevF : ℕ → ℕ → List Char
  | 0, _ => []
  | fuel + 1, n => if n = 0 then [] else digitChar (n % 10) :: natDigitsRevF fuel (n / 10)

def natDigitsRev (n : ℕ) : List Char := natDigitsRevF n n

/-- Decimal rendering of a natural number, as Python `str` produces it. -/
def natDigits (n : ℕ) : List Char := if n = 0 then [digitChar 0] else (natDigitsRev n).reverse

/-- Numeric value of a digit string (Python `int`). -/
def digitsVal (l : List Char) : ℕ := l.foldl (fun a c => 10 * a + (c.toNat - 48)) 0

/-- Python `str` on an `int` (possibly negative). -/
def intStr (i : ℤ) : List Char :=
  if i < 0 then Char.ofNat 45 :: natDigits (-i).toNat else natDigits i.toNat

/-! ### Coordinate codec and aggregator

Embedding of the dataclasses `Zone`, `Coordinate`, `GathererEntry`,
`GathererZone`, `Aggregate` (src lines 146-226).  A `Coordinate` carries the
memo field `coord` (0 = not yet computed), exactly as the Python dataclass;
`as_gatherer_coord` returns the packed value together with the coordinate
after the memoising assignment `self.coord = ...`. -/

structure Zone where
  name : List Char
  id : List Char
deriving DecidableEq, Repr

structure Coordinate where
  x : ℚ
  y : ℚ
  coord : ℤ
deriving DecidableEq, Repr

/-- The packing formula of `Coordinate.as_gatherer_coord` (src line 167):
`math.floor((x/100)*10000+0.5)*1000000 + math.floor((y/100)*10000+0.5)*100`,
with the Python floats read as exact rationals. -/
def packCoord (x y : ℚ) : ℤ :=
  ⌊x / 100 * 10000 + 1 / 2⌋ * 1000000 + ⌊y / 100 * 10000 + 1 / 2⌋ * 100

/-- `Coordinate.as_gatherer_coord` (src lines 165-168): if the memo field is
0, compute and store the packed value; return the (value, updated self)
pair. -/
def Coordinate.as_gatherer_coord (c : Coordinate) : ℤ × Coordinate :=
  if c.coord = 0 then (packCoord c.x c.y, { c with coord := packCoord c.x c.y })
  else (c.coord, c)

/-- The packed value an entry currently renders as. -/
def coordVal (c : Coordinate) : ℤ := c.as_gatherer_coord.1

/-- The coordinate after `as_gatherer_coord` has memoised its value. -/
def memoCoord (c : Coordinate) : Coordinate := c.as_gatherer_coord.2

structure GathererEntry where
  coordinate : Coordinate
  entry_id : List Char
deriving DecidableEq, Repr

structure GathererZone where
  zone : Zone
  entries : List GathererEntry
deriving DecidableEq, Repr

structure Aggregate where
  type : List Char
  zones : List GathererZone
deriving DecidableEq, Repr

/-- One iteration of the `while` body in `Aggregate.add` (src line 223):
`entry.coordinate.coord = entry.coordinate.as_gatherer_coord() + 1`. -/
def bumpCoord (c : Coordinate) : Coordinate := { c with coord := coordVal c + 1 }

/-- The `while entry.coordinate in [x.coordinate for x in gatherer_zone.entries]`
loop of `Aggregate.add` (src lines 222-223), run with explicit fuel.  Note
the membership test is Python `==` on the `Coordinate` dataclass, i.e.
structural equality of `(x, y, coord)` — not equality of packed values. -/
def resolveFuel : ℕ → List Coordinate → Coordinate → Coordinate
  | 0, _, c => c
  | n + 1, occ, c => if c ∈ occ then resolveFuel n occ (bumpCoord c) else c

/-- Collision resolution against the occupied coordinate list, with enough
fuel for the loop to finish whenever the packed values involved are
non-negative (`resolveCoord_not_mem` below). -/
def resolveCoord (occ : List Coordinate) (c : Coordinate) : Coordinate :=
  resolveFuel (occ.length + 1) occ c

/-- `Aggregate.add` (src lines 219-226) acting on the zone list: find the
first `GathererZone` whose zone equals `z`, resolve the entry coordinate
against that zone's occupied coordinates and append; if no zone matches,
start a new `GathererZone` with the entry as-is. -/
def addToZones : List GathererZone → Zone → GathererEntry → List GathererZone
  | [], z, e => [⟨z, [e]⟩]
  | gz :: rest, z, e =>
    if gz.zone = z then
      ⟨gz.zone, gz.entries ++
        [{ e with coordinate := resolveCoord (gz.entries.map (·.coordinate)) e.coordinate }]⟩
        :: rest
    else gz :: addToZones rest z e

def Aggregate.add (a : Aggregate) (z : Zone) (e : GathererEntry) : Aggregate :=
  { a with zones := addToZones a.zones z e }

/-- `WowheadObject` (src lines 78-91): only the fields the core reads; the
`coordinates` dict (Zone → list of Coordinate) keeps insertion order. -/
structure WowheadObject where
  name : List Char
  ids : List (List Char)
  coordinates : List (Zone × List Coordinate)
  gathermate_id : List Char
deriving Repr

/-- `Aggregate.__init__` (src lines 204-210): fold `add` over every
coordinate of every zone of every object, in order. -/
def Aggregate.ofObjects (ty : List Char) (objects : List WowheadObject) : Aggregate :=
  { type := ty
    zones := objects.foldl
      (fun zs o => o.coordinates.foldl
        (fun zs2 zc => zc.2.foldl
          (fun zs3 c => addToZones zs3 zc.1 ⟨c, o.gathermate_id⟩) zs2) zs) [] }

/-- An aggregation run presented as one flat observation sequence:
`Aggregate.__init__` is exactly this fold over the flattened triples
(`ofObjects_eq_aggregateObs`). -/
def aggregateObs (obs : List (Zone × GathererEntry)) : List GathererZone :=
  obs.foldl (fun zs p => addToZones zs p.1 p.2) []

/-- The observation list an object contributes, in iteration order. -/
def objObs (o : WowheadObject) : List (Zone × GathererEntry) :=
  o.coordinates.flatMap (fun zc => zc.2.map (fun c => (zc.1, ⟨c, o.gathermate_id⟩)))

/-! ### Termination of the collision loop

The Python `while` loop terminates whenever the candidate's packed value is
non-negative: each iteration's current coordinate is structurally distinct
from all earlier ones, so each must match a distinct member of the finite
occupied list.  `bumpChain c i` is the candidate after `i` bumps. -/

def bumpChain (c : Coordinate) : ℕ → Coordinate
  | 0 => c
  | i + 1 => bumpCoord (bumpChain c i)

/-! ### Serialization order of a zone

`GathererEntry.__lt__` (src lines 179-180) compares packed values, and
`GathererZone.__repr__` (src lines 188-193) emits `sorted(self.entries)`.
Python's stable sort is modelled by `List.insertionSort` on the same key. -/

def entryLE (a b : GathererEntry) : Prop :=
  coordVal a.coordinate ≤ coordVal b.coordinate

instance : DecidableRel entryLE := fun a b =>
  inferInstanceAs (Decidable (coordVal a.coordinate ≤ coordVal b.coordinate))

instance : IsTotal GathererEntry entryLE :=
  ⟨fun a b => le_total (coordVal a.coordinate) (coordVal b.coordinate)⟩

instance : IsTrans GathererEntry entryLE :=
  ⟨fun _ _ _ hab hbc => le_trans hab hbc⟩

/-- The entry order `GathererZone.__repr__` iterates over. -/
def GathererZone.sortedEntries (gz : GathererZone) : List GathererEntry :=
  List.insertionSort entryLE gz.entries

/-- `GathererEntry.__repr__` (src line 177): the line emitted for one entry. -/
def GathererEntry.reprText (e : GathererEntry) : List Char :=
  [Char.ofNat 9, Char.ofNat 9, Char.ofNat 91] ++ intStr (coordVal e.coordinate) ++
    ("] = ".toList) ++ e.entry_id ++ [Char.ofNat 44]

/-- `GathererZone.__repr__` (src lines 188-193). -/
def GathererZone.reprText (gz : GathererZone) : List Char :=
  [Char.ofNat 9, Char.ofNat 91] ++ gz.zone.id ++ ("] = ".toList) ++ [Char.ofNat 123, Char.ofNat 10]
    ++ (gz.sortedEntries.flatMap (fun e => e.reprText ++ [Char.ofNat 10]))
    ++ [Char.ofNat 9, Char.ofNat 125, Char.ofNat 44, Char.ofNat 10]

/-- `GathererZone.__lt__` (src lines 195-196) compares `int(zone.id)`. -/
def zoneLE (a b : GathererZone) : Prop :=
  digitsVal a.zone.id ≤ digitsVal b.zone.id

instance : DecidableRel zoneLE := fun a b =>
  inferInstanceAs (Decidable (digitsVal a.zone.id ≤ digitsVal b.zone.id))

/-- `Aggregate.__repr__` (src lines 212-217). -/
def Aggregate.reprText (a : Aggregate) : List Char :=
  ("GatherMate2".toList) ++ a.type ++ ("DB = ".toList) ++ [Char.ofNat 123, Char.ofNat 10]
    ++ ((List.insertionSort zoneLE a.zones).flatMap GathererZone.reprText)
    ++ [Char.ofNat 125]

/-! ### The Lua-table serializer pair

`parse_lua_table` (src lines 973-997) walks the text with
`re.finditer(r'\[(\d+)\]\s*=\s*(\d+|{[^{}]*})', content)`; a nested-table
value is re-scanned with `re.finditer(r'\[(\d+)\]\s*=\s*(\d+)', inner)`.
The two patterns are implemented below as deterministic character
matchers (`matchEntryAt`, `matchPairAt`); `finditer`'s left-to-right
non-overlapping scan is `scanEntries` / `scanPairs`.
`serialize_lua_table` (src lines 1000-1013) is reproduced line by line. -/

def isWs (c : Char) : Bool := c.toNat = 32 || (9 ≤ c.toNat && c.toNat ≤ 13)

/-- `\s*=\s*` followed by a greedy `\d+`: the shared suffix of both inner
patterns after the closing bracket of the key. -/
def matchEqNum (r3 : List Char) : Option (ℕ × List Char) :=
  match r3.dropWhile isWs with
  | c3 :: r5 =>
    if c3 = Char.ofNat 61 then
      let r6 := r5.dropWhile isWs
      let vs := r6.takeWhile isDigit
      if vs = [] then none else some (digitsVal vs, r6.dropWhile isDigit)
    else none
  | [] => none

/-- One attempt of `\[(\d+)\]\s*=\s*(\d+)` anchored at the list head. -/
def matchPairAt (l : List Char) : Option (ℕ × ℕ × List Char) :=
  match l with
  | c :: r1 =>
    if c = Char.ofNat 91 then
      let ds := r1.takeWhile isDigit
      if ds = [] then none else
      match r1.dropWhile isDigit with
      | c2 :: r3 =>
        if c2 = Char.ofNat 93 then
          match matchEqNum r3 with
          | some (v, r7) => some (digitsVal ds, v, r7)
          | none => none
        else none
      | [] => none
    else none
  | [] => none

/-- Raw value captured by the outer pattern: a number, or the text between
the braces of a one-level nested table. -/
inductive RawVal where
  | num (n : ℕ)
  | tbl (content : List Char)
deriving DecidableEq, Repr

/-- One attempt of `\[(\d+)\]\s*=\s*(\d+|{[^{}]*})` anchored at the head.
The alternation tries `\d+` first; the table branch is `{`, a greedy run of
non-brace characters, then `}`. -/
def matchEntryAt (l : List Char) : Option (ℕ × RawVal × List Char) :=
  match l with
  | c :: r1 =>
    if c = Char.ofNat 91 then
      let ds := r1.takeWhile isDigit
      if ds = [] then none else
      match r1.dropWhile isDigit with
      | c2 :: r3 =>
        if c2 = Char.ofNat 93 then
          match r3.dropWhile isWs with
          | c3 :: r5 =>
            if c3 = Char.ofNat 61 then
              let r6 := r5.dropWhile isWs
              let vs := r6.takeWhile isDigit
              if vs ≠ [] then some (digitsVal ds, RawVal.num (digitsVal vs), r6.dropWhile isDigit)
              else
                match r6 with
                | c4 :: r7 =>
                  if c4 = Char.ofNat 123 then
                    let content := r7.takeWhile (fun ch => ch ≠ Char.ofNat 123 ∧ ch ≠ Char.ofNat 125)
                    match r7.dropWhile (fun ch => ch ≠ Char.ofNat 123 ∧ ch ≠ Char.ofNat 125) with
                    | c5 :: r8 =>
                      if c5 = Char.ofNat 125 then some (digitsVal ds, RawVal.tbl content, r8)
                      else none
                    | [] => none
                  else none
                | [] => none
            else none
          | [] => none
        else none
      | [] => none
    else none
  | [] => none

/-- `re.finditer` of the inner pair pattern: left-to-right, skipping one
character when no match starts here, continuing after a match's end.
Structural fuel (the input length is enough, as every step consumes at
least one character). -/
def scanPairsF : ℕ → List Char → List (ℕ × ℕ)
  | 0, _ => []
  | _, [] => []
  | fuel + 1, c :: rest =>
    match matchPairAt (c :: rest) with
    | some (k, v, r) => (k, v) :: scanPairsF fuel r
    | none => scanPairsF fuel rest

def scanPairs (l : List Char) : List (ℕ × ℕ) := scanPairsF l.length l

/-- `re.finditer` of the outer entry pattern, with structural fuel. -/
def scanEntriesF : ℕ → List Char → List (ℕ × RawVal)
  | 0, _ => []
  | _, [] => []
  | fuel + 1, c :: rest =>
    match matchEntryAt (c :: rest) with
    | some (k, v, r) => (k, v) :: scanEntriesF fuel r
    | none => scanEntriesF fuel rest

def scanEntries (l : List Char) : List (ℕ × RawVal) := scanEntriesF l.length l

/-- A parsed field of the outer table: a plain number or a nested
coordinate table. -/
inductive LuaField where
  | num (n : ℕ)
  | tbl (d : List (ℕ × ℕ))
deriving DecidableEq, Repr

/-- Zone tables keyed by zone id, as handed to `serialize_lua_table`. -/
abbrev LuaTable : Type := List (ℕ × List (ℕ × ℕ))

/-- Parse result of `parse_lua_table`: values may be numbers or tables. -/
abbrev MixedTable : Type := List (ℕ × LuaField)

/-- The inner `for inner_match in re.finditer(...)` loop filling a dict. -/
def innerParse (content : List Char) : List (ℕ × ℕ) :=
  (scanPairs content).foldl (fun d p => dset p.1 p.2 d) []

/-- `parse_lua_table` (src lines 973-997). -/
def parse_lua_table (content : List Char) : MixedTable :=
  (scanEntries content).foldl
    (fun d p =>
      dset p.1
        (match p.2 with
         | RawVal.num n => LuaField.num n
         | RawVal.tbl c => LuaField.tbl (innerParse c)) d) []

/-- `sorted(data.keys())` on an association-list dict. -/
def sortedKeys {V : Type} (d : List (ℕ × V)) : List ℕ :=
  List.insertionSort (· ≤ ·) (d.map Prod.fst)

/-- `"\n".join(lines)`. -/
def joinNl : List (List Char) → List Char
  | [] => []
  | [l] => l
  | l :: ls => l ++ Char.ofNat 10 :: joinNl ls

/-- The `lines` list built by `serialize_lua_table` (src lines 1000-1012). -/
def serializeLines (data : LuaTable) (table_name : List Char) : List (List Char) :=
  (table_name ++ (" = ".toList) ++ [Char.ofNat 123]) ::
    ((sortedKeys data).flatMap (fun z =>
      let zone_data := (dget z data).getD []
      ((Char.ofNat 91 :: natDigits z) ++ ("] = ".toList) ++ [Char.ofNat 123]) ::
        ((sortedKeys zone_data).map (fun c =>
          (Char.ofNat 91 :: natDigits c) ++ ("] = ".toList) ++
            natDigits ((dget c zone_data).getD 0) ++ [Char.ofNat 44]))
        ++ [[Char.ofNat 125, Char.ofNat 44]])
    ++ [[Char.ofNat 125]])

/-- `serialize_lua_table` (src lines 1000-1013). -/
def serialize_lua_table (data : LuaTable) (table_name : List Char) : List Char :=
  joinNl (serializeLines data table_name)

/-! ### Exact shape of the serialized text

The serializer's output is reshaped into cons-rooted blocks so that the
two `finditer` scans can be evaluated symbolically: `pairLine` is one
inner line, `innerText` the text the outer pattern captures for a zone,
`zoneBlock` a zone section, `blocksText` everything after the header
line. -/

def pairLine (c v : ℕ) : List Char :=
  Char.ofNat 91 :: (natDigits c ++ Char.ofNat 93 :: Char.ofNat 32 :: Char.ofNat 61 ::
    Char.ofNat 32 :: (natDigits v ++ [Char.ofNat 44]))

def innerText (ps : List (ℕ × ℕ)) : List Char :=
  Char.ofNat 10 :: ps.flatMap (fun p => pairLine p.1 p.2 ++ [Char.ofNat 10])

def zoneBlock (z : ℕ) (ps : List (ℕ × ℕ)) : List Char :=
  Char.ofNat 91 :: (natDigits z ++ Char.ofNat 93 :: Char.ofNat 32 :: Char.ofNat 61 ::
    Char.ofNat 32 :: Char.ofNat 123 :: (innerText ps ++ [Char.ofNat 125]))

/-- The `(coordinate, sourceId)` pairs a zone's section serializes, in
`sorted(keys)` order with `dict[key]` values. -/
def zonePairs (zd : List (ℕ × ℕ)) : List (ℕ × ℕ) :=
  (sortedKeys zd).map (fun c => (c, (dget c zd).getD 0))

def blocksText (zps : List (ℕ × List (ℕ × ℕ))) : List Char :=
  zps.flatMap (fun q => zoneBlock q.1 q.2 ++ [Char.ofNat 44, Char.ofNat 10]) ++
    [Char.ofNat 125]

def tableShape (T : LuaTable) : List (ℕ × List (ℕ × ℕ)) :=
  (sortedKeys T).map (fun z => (z, zonePairs ((dget z T).getD [])))

/-- `"\n".join` seen as one flat block per line. -/
def preJoin (ls : List (List Char)) : List Char :=
  ls.flatMap (fun l => l ++ [Char.ofNat 10])

/-! ### The merge engine

`merge_gathermate_data` (src lines 1016-1060) locates each category section
with `re.search(r'NAME\s*=\s*{(.*?)}\s*(?=GatherMate2|$)', content, DOTALL)`
and the settings blob with `re.search(r'(GatherMate2DB\s*=\s*{.*?}\s*\n)',
content, DOTALL)`.  Both are modelled as leftmost-start, lazy-content
scans.  A parsed section whose top-level value is a plain number makes the
Python code raise (`dict.update` / `.keys()` on an `int`), so the embedding
returns `none` in that case. -/

def litAt (p l : List Char) : Bool :=
  match p, l with
  | [], _ => true
  | _ :: _, [] => false
  | a :: p1, b :: l1 => a = b && litAt p1 l1

/-- The lookahead `(?=GatherMate2|$)` with a preceding greedy `\s*`:
succeeds if, after consuming some run of whitespace, the text starts with
`GatherMate2` or ends. -/
def lookGM (rest : List Char) : Bool :=
  match rest with
  | [] => true
  | c :: r => if litAt ("GatherMate2".toList) (c :: r) then true else isWs c && lookGM r

/-- Lazy `(.*?)}` content capture for the category pattern: stop at the
first `}` whose tail satisfies `\s*(?=GatherMate2|$)`. -/
def contentScan : List Char → Option (List Char)
  | [] => none
  | c :: r =>
    if c = Char.ofNat 125 ∧ lookGM r then some []
    else (contentScan r).map (c :: ·)

/-- One attempt of the category pattern anchored at the head; returns the
captured group (the text between the braces). -/
def tryDbAt (table_name s : List Char) : Option (List Char) :=
  if litAt table_name s then
    match (s.drop table_name.length).dropWhile isWs with
    | c1 :: r1 =>
      if c1 = Char.ofNat 61 then
        match r1.dropWhile isWs with
        | c2 :: r2 => if c2 = Char.ofNat 123 then contentScan r2 else none
        | [] => none
      else none
    | [] => none
  else none

/-- `re.search` for the category pattern: leftmost start that matches. -/
def findDb (table_name : List Char) : List Char → Option (List Char)
  | [] => none
  | c :: r =>
    match tryDbAt table_name (c :: r) with
    | some content => some content
    | none => findDb table_name r

/-- Split a whitespace run just after its last newline (the greedy
backtracking of `\s*\n`); `none` when the run has no newline. -/
def splitAfterLastNl : List Char → Option (List Char × List Char)
  | [] => none
  | c :: r =>
    match splitAfterLastNl r with
    | some (a, b) => some (c :: a, b)
    | none => if c = Char.ofNat 10 then some ([c], r) else none

/-- Lazy `.*?}\s*\n` scan for the settings pattern: stop at the first `}`
whose following whitespace run contains a newline; the match extends
through the last newline of that run. -/
def settingsScan : List Char → Option (List Char)
  | [] => none
  | c :: r =>
    if c = Char.ofNat 125 then
      match splitAfterLastNl (r.takeWhile isWs) with
      | some (a, _) => some (c :: a)
      | none => (settingsScan r).map (c :: ·)
    else (settingsScan r).map (c :: ·)

/-- One attempt of `(GatherMate2DB\s*=\s*{.*?}\s*\n)` anchored at the head;
group(1) is the whole matched text. -/
def trySettingsAt (s : List Char) : Option (List Char) :=
  let nm := "GatherMate2DB".toList
  if litAt nm s then
    let afterName := s.drop nm.length
    let wsA := afterName.takeWhile isWs
    match afterName.dropWhile isWs with
    | c1 :: r1 =>
      if c1 = Char.ofNat 61 then
        let wsB := r1.takeWhile isWs
        match r1.dropWhile isWs with
        | c2 :: r2 =>
          if c2 = Char.ofNat 123 then
            (settingsScan r2).map (fun body =>
              nm ++ wsA ++ [Char.ofNat 61] ++ wsB ++ [Char.ofNat 123] ++ body)
          else none
        | [] => none
      else none
    | [] => none
  else none

/-- `re.search` for the settings pattern. -/
def findSettings : List Char → Option (List Char)
  | [] => none
  | c :: r =>
    match trySettingsAt (c :: r) with
    | some s => some s
    | none => findSettings r

/-- `merge_db` (src lines 1031-1037): `merged = dict(existing)`, then for
each new zone update (or create) the inner dict.  Updating a zone whose
existing value is a plain number is a Python `AttributeError`; the model
returns `none` there. -/
def merge_db (existing : MixedTable) (new : LuaTable) : Option MixedTable :=
  new.foldlM
    (fun merged zc =>
      match dget zc.1 merged with
      | some (LuaField.num _) => none
      | some (LuaField.tbl d) =>
          some (dset zc.1 (LuaField.tbl (zc.2.foldl (fun dd p => dset p.1 p.2 dd) d)) merged)
      | none =>
          some (merged ++ [(zc.1, LuaField.tbl (zc.2.foldl (fun dd p => dset p.1 p.2 dd) []))]))
    existing

/-- A merged table enters the output only when non-empty, and must then be
a pure zone → coords table for `serialize_lua_table` not to raise. -/
def pureTable : MixedTable → Option LuaTable
  | [] => some []
  | (z, LuaField.tbl d) :: rest => (pureTable rest).map ((z, d) :: ·)
  | (_, LuaField.num _) :: _ => none

def sectionParts (merged : MixedTable) (table_name : List Char) : Option (List (List Char)) :=
  if merged = [] then some []
  else (pureTable merged).map (fun t => [serialize_lua_table t table_name])

/-- The section text `parse_lua_table` is fed for one category: the
captured group of the category regex, or the empty dict when the section is
missing. -/
def parsedSection (table_name existing : List Char) : MixedTable :=
  match findDb table_name existing with
  | some content => parse_lua_table content
  | none => []

/-- `merge_gathermate_data` (src lines 1016-1060).  `new_treasures` keeps
Python's falsy check: an empty dict (or `None`) skips the treasure merge. -/
def merge_gathermate_data (existing_content : List Char)
    (new_herbs new_ores new_fish new_treasures : LuaTable) : Option (List Char) := do
  let existing_herbs := parsedSection ("GatherMate2HerbDB".toList) existing_content
  let existing_ores := parsedSection ("GatherMate2MineDB".toList) existing_content
  let existing_fish := parsedSection ("GatherMate2FishDB".toList) existing_content
  let existing_treasures := parsedSection ("GatherMate2TreasureDB".toList) existing_content
  let merged_herbs ← merge_db existing_herbs new_herbs
  let merged_ores ← merge_db existing_ores new_ores
  let merged_fish ← merge_db existing_fish new_fish
  let merged_treasures ←
    if new_treasures = [] then some existing_treasures
    else merge_db existing_treasures new_treasures
  let settings_section :=
    match findSettings existing_content with
    | some s => s
    | none => ("GatherMate2DB = \x7b\n\x7d\n".toList)
  let ph ← sectionParts merged_herbs ("GatherMate2HerbDB".toList)
  let po ← sectionParts merged_ores ("GatherMate2MineDB".toList)
  let pf ← sectionParts merged_fish ("GatherMate2FishDB".toList)
  let pt ← sectionParts merged_treasures ("GatherMate2TreasureDB".toList)
  pure (joinNl (settings_section :: (ph ++ po ++ pf ++ pt)))

/-! ### The delta cache

`mining_worker` (src lines 1520-1586, 1747-1773): per-expansion caches are
dicts `cache_key → coord_key → source id` with `cache_key = zone.id + "_" +
node_type` and `coord_key = str(coord.as_gatherer_coord())`.  Prior
snapshots are merged into `old_cache` with `dict.update` — a TOP-LEVEL
key replacement, not an inner union.  `count_node_coords` fills the
current expansion's cache and counts a coordinate as new iff its
`coord_key` is absent from `old_cache.get(cache_key, {})`.  The
per-zone `all_stats` bookkeeping is GUI-only reporting and is not
modelled. -/

abbrev InnerCache : Type := List (List Char × List Char)

abbrev CacheMap : Type := List (List Char × InnerCache)

def cacheKey (z : Zone) (node_type : List Char) : List Char :=
  z.id ++ [Char.ofNat 95] ++ node_type

/-- `if cache_key not in new_caches[exp]: new_caches[exp][cache_key] = {}`. -/
def ensureKey (m : CacheMap) (ck : List Char) : CacheMap :=
  match dget ck m with
  | some _ => m
  | none => dset ck [] m

/-- `new_caches[exp][cache_key][coord_key] = node.gathermate_id`. -/
def wset (m : CacheMap) (ck ik v : List Char) : CacheMap :=
  dset ck (dset ik v ((dget ck m).getD [])) m

/-- Nested lookup in a cache: composite key, then coordinate key. -/
def snapLookup (m : CacheMap) (ck ik : List Char) : Option (List Char) :=
  (dget ck m).bind (dget ik)

/-- `coord_key not in old_cache.get(cache_key, {})`. -/
def missOld (old : CacheMap) (ck ik : List Char) : Bool :=
  (dget ik ((dget ck old).getD [])).isNone

/-- The `for coord in coords` loop body of `count_node_coords` (src lines
1577-1584): write the coordinate into the expansion cache (memoising its
packed value) and count it as new against the prior view. -/
def processCoords (old : CacheMap) (ck gid : List Char) (m : CacheMap) :
    List Coordinate → CacheMap × ℕ × List Coordinate
  | [] => (m, 0, [])
  | c :: cs =>
    let ik := intStr (coordVal c)
    let m2 := wset m ck ik gid
    let res := processCoords old ck gid m2 cs
    (res.1, (if missOld old ck ik then 1 else 0) + res.2.1, memoCoord c :: res.2.2)

/-- The `for zone, coords in node.coordinates.items()` loop of
`count_node_coords` (src lines 1565-1584), also accumulating `total`. -/
def processZones (old : CacheMap) (ty gid : List Char) (m : CacheMap) :
    List (Zone × List Coordinate) → CacheMap × ℕ × ℕ × List (Zone × List Coordinate)
  | [] => (m, 0, 0, [])
  | (z, cs) :: rest =>
    let ck := cacheKey z ty
    let r1 := processCoords old ck gid (ensureKey m ck) cs
    let r2 := processZones old ty gid r1.1 rest
    (r2.1, cs.length + r2.2.1, r1.2.1 + r2.2.2.1, (z, r1.2.2) :: r2.2.2.2)

/-- `count_node_coords(node, node_type, expansion_short)` (src lines
1561-1586) with the expansion cache and the node passed functionally:
returns the updated cache, `total`, `new_count` and the node with its
coordinates memoised. -/
def count_node_coords (old : CacheMap) (m : CacheMap) (node : WowheadObject)
    (node_type : List Char) : CacheMap × ℕ × ℕ × WowheadObject :=
  let r := processZones old node_type node.gathermate_id m node.coordinates
  (r.1, r.2.1, r.2.2.1, { node with coordinates := r.2.2.2 })

/-- The `for node in nodes_list` loop of one queue batch (src lines
1605-1620), accumulating `type_total` and `type_new`. -/
def processNodes (old : CacheMap) (m : CacheMap) (node_type : List Char) :
    List WowheadObject → CacheMap × ℕ × ℕ × List WowheadObject
  | [] => (m, 0, 0, [])
  | n :: ns =>
    let r1 := count_node_coords old m n node_type
    let r2 := processNodes old r1.1 node_type ns
    (r2.1, r1.2.1 + r2.2.1, r1.2.2.1 + r2.2.2.1, r1.2.2.2 :: r2.2.2.2)

/-- One entry of `processing_queue`: the expansion short name, the type key
and the node list (the name fields of the tuple are GUI labels). -/
structure Batch where
  expansion : List Char
  node_type : List Char
  nodes : List WowheadObject

/-- `new_caches = {exp_short: {} for exp_short in selected_expansions}`
(src line 1559). -/
def initCaches (selected : List (List Char)) : List (List Char × CacheMap) :=
  selected.foldl (fun a e => dset e [] a) []

/-- The main processing loop over `processing_queue` (src lines 1595-1636):
threads the per-expansion caches and accumulates run totals. -/
def run_batches (old : CacheMap) (caches : List (List Char × CacheMap)) :
    List Batch → List (List Char × CacheMap) × ℕ × ℕ
  | [] => (caches, 0, 0)
  | b :: rest =>
    let m0 := (dget b.expansion caches).getD []
    let r1 := processNodes old m0 b.node_type b.nodes
    let r2 := run_batches old (dset b.expansion r1.1 caches) rest
    (r2.1, r1.2.1 + r2.2.1, r1.2.2.1 + r2.2.2)

/-- Loading prior snapshots (src lines 1530-1541): `old_cache.update(...)`
per selected expansion, i.e. top-level key replacement in order. -/
def load_old_cache (snaps : List CacheMap) : CacheMap :=
  snaps.foldl (fun acc s => s.foldl (fun a kv => dset kv.1 kv.2 a) acc) []

/-- The (composite key, coordinate key, source id) write sequence a node
contributes, in iteration order. -/
def nodeObs (node : WowheadObject) (node_type : List Char) :
    List (List Char × List Char × List Char) :=
  node.coordinates.flatMap
    (fun zc => zc.2.map (fun c => (cacheKey zc.1 node_type, intStr (coordVal c),
      node.gathermate_id)))

def batchObs (b : Batch) : List (List Char × List Char × List Char) :=
  b.nodes.flatMap (nodeObs · b.node_type)

def queueObs (q : List Batch) : List (List Char × List Char × List Char) :=
  q.flatMap batchObs

/-- The last of a write sequence matching a composite and coordinate key. -/
def lastWrite (ws : List (List Char × List Char × List Char)) (a b : List Char) :
    Option (List Char) :=
  (ws.reverse.find? (fun w => decide (w.1 = a ∧ w.2.1 = b))).map (fun w => w.2.2)

/-- The writes one zone entry of a node contributes. -/
def zoneWrites (ty gid : List Char) (zc : Zone × List Coordinate) :
    List (List Char × List Char × List Char) :=
  zc.2.map (fun c => (cacheKey zc.1 ty, intStr (coordVal c), gid))

/-! ### Helper lemmas: run totals and novelty counts -/

def missObs (old : CacheMap) (o : List Char × List Char × List Char) : Bool :=
  missOld old o.1 o.2.1

/-- The prior-cache view `load_old_cache` resolves a composite key to the
LAST loaded snapshot that contains it (top-level replacement). -/
def loadLookup (snaps : List CacheMap) (key : List Char) : Option InnerCache :=
  (snaps.reverse.find? (fun s => (dget key s).isSome)).bind (dget key)

/-- Value of a coordinate key inside a zone of a parsed (mixed) table. -/
def mixedLookup (z c : ℕ) (T : MixedTable) : Option ℕ :=
  match dget z T with
  | some (LuaField.tbl d) => dget c d
  | _ => none

theorem dget_dset_same {K V : Type} [DecidableEq K] (k : K) (v : V) (d : List (K × V)) :
    dget k (dset k v d) = some v := by
  induction d with
  | nil => simp [dset, dget]
  | cons p rest ih =>
    obtain ⟨k1, v1⟩ := p
    by_cases h : k1 = k
    · simp [dset, dget, h]
    · simp [dset, dget, h, ih]

theorem dget_dset_other {K V : Type} [DecidableEq K] (k k' : K) (v : V) (d : List (K × V))
    (h : k' ≠ k) : dget k' (dset k v d) = dget k' d := by
  have hke : ¬(k = k') := fun hh => h hh.symm
  induction d with
  | nil => simp [dset, dget, hke]
  | cons p rest ih =>
    obtain ⟨k1, v1⟩ := p
    by_cases h1 : k1 = k
    · subst h1
      simp [dset, dget, hke]
    · by_cases h2 : k1 = k'
      · simp [dset, dget, h1, h2, h]
      · simp [dset, dget, h1, h2, ih]

/-- Setting a key that is absent appends the pair at the end. -/
theorem dset_append_of_not_mem {K V : Type} [DecidableEq K] (k : K) (v : V)
    (acc : List (K × V)) (hk : k ∉ dkeys acc) : dset k v acc = acc ++ [(k, v)] := by
  induction acc with
  | nil => simp [dset]
  | cons q rest2 ih2 =>
    obtain ⟨k1, v1⟩ := q
    simp only [dkeys, List.map_cons, List.mem_cons] at hk
    have h1 : k1 ≠ k := fun hh => hk (Or.inl hh.symm)
    have h2 : k ∉ dkeys rest2 := fun hh => hk (Or.inr hh)
    simp [dset, h1, ih2 h2]

/-- Folding `dset` over a list of pairs with pairwise-distinct keys,
starting from the empty dict, returns exactly that list. -/
theorem foldl_dset_nodup {K V : Type} [DecidableEq K] (l : List (K × V))
    (h : (l.map Prod.fst).Nodup) :
    l.foldl (fun d p => dset p.1 p.2 d) [] = l := by
  suffices H : ∀ (l : List (K × V)), (l.map Prod.fst).Nodup →
      ∀ (acc : List (K × V)), (∀ k, k ∈ dkeys acc → k ∉ l.map Prod.fst) →
      l.foldl (fun d p => dset p.1 p.2 d) acc = acc ++ l by
    simpa using H l h [] (by simp [dkeys])
  intro l
  induction l with
  | nil => intro _ acc _; simp
  | cons p rest ih =>
    intro h acc hacc
    obtain ⟨k, v⟩ := p
    simp only [List.map_cons, List.nodup_cons] at h
    have hk : k ∉ dkeys acc := by
      intro hmem
      exact hacc k hmem (by simp)
    rw [List.foldl_cons]
    show List.foldl (fun d p => dset p.1 p.2 d) (dset k v acc) rest = acc ++ (k, v) :: rest
    rw [dset_append_of_not_mem k v acc hk]
    rw [ih h.2 (acc ++ [(k, v)])]
    · simp
    · intro k2 hk2
      simp only [dkeys, List.map_append, List.mem_append, List.map_cons, List.map_nil,
        List.mem_singleton] at hk2
      rcases hk2 with hk2 | hk2
      · intro hmem
        exact hacc k2 hk2 (by simp [hmem])
      · subst hk2
        exact h.1

theorem natDigitsRevF_zero (fuel : ℕ) : natDigitsRevF fuel 0 = [] := by
  cases fuel <;> simp [natDigitsRevF]

theorem natDigitsRevF_congr : ∀ (f1 : ℕ) (f2 n : ℕ), n ≤ f1 → n ≤ f2 →
    natDigitsRevF f1 n = natDigitsRevF f2 n := by
  intro f1
  induction f1 with
  | zero =>
    intro f2 n h1 _
    have : n = 0 := by omega
    subst this
    rw [natDigitsRevF_zero, natDigitsRevF_zero]
  | succ f ih =>
    intro f2 n h1 h2
    by_cases hn : n = 0
    · subst hn
      rw [natDigitsRevF_zero, natDigitsRevF_zero]
    · cases f2 with
      | zero => omega
      | succ f2x =>
        rw [natDigitsRevF, natDigitsRevF, if_neg hn, if_neg hn]
        have hdiv : n / 10 < n := Nat.div_lt_self (by omega) (by norm_num)
        rw [ih f2x (n / 10) (by omega) (by omega)]

theorem natDigitsRev_zero : natDigitsRev 0 = [] := natDigitsRevF_zero 0

theorem natDigitsRev_succ (n : ℕ) (hn : n ≠ 0) :
    natDigitsRev n = digitChar (n % 10) :: natDigitsRev (n / 10) := by
  unfold natDigitsRev
  match n, hn with
  | m + 1, _ =>
    rw [natDigitsRevF, if_neg (by omega)]
    have hdiv : (m + 1) / 10 < m + 1 := Nat.div_lt_self (by omega) (by norm_num)
    rw [natDigitsRevF_congr m ((m + 1) / 10) ((m + 1) / 10) (by omega) (by omega)]

theorem digitsVal_append (l1 l2 : List Char) :
    digitsVal (l1 ++ l2) = l2.foldl (fun a c => 10 * a + (c.toNat - 48)) (digitsVal l1) := by
  simp [digitsVal, List.foldl_append]

theorem digitChar_toNat {d : ℕ} (h : d < 10) : (digitChar d).toNat = 48 + d := by
  interval_cases d <;> decide

theorem isDigit_digitChar {d : ℕ} (h : d < 10) : isDigit (digitChar d) = true := by
  simp only [isDigit, digitChar_toNat h, Bool.and_eq_true, decide_eq_true_eq]
  omega

theorem natDigitsRev_digits (n : ℕ) : ∀ c ∈ natDigitsRev n, isDigit c = true := by
  induction n using Nat.strong_induction_on with
  | _ n ih =>
    by_cases hn : n = 0
    · subst hn
      simp [natDigitsRev_zero]
    · intro c hc
      rw [natDigitsRev_succ n hn] at hc
      rcases List.mem_cons.mp hc with hc | hc
      · subst hc
        exact isDigit_digitChar (Nat.mod_lt _ (by norm_num))
      · exact ih (n / 10) (Nat.div_lt_self (by omega) (by norm_num)) c hc

theorem natDigits_digits (n : ℕ) : ∀ c ∈ natDigits n, isDigit c = true := by
  unfold natDigits
  split
  · intro c hc
    simp only [List.mem_singleton] at hc
    subst hc
    exact isDigit_digitChar (by norm_num)
  · intro c hc
    exact natDigitsRev_digits n c (List.mem_reverse.mp hc)

theorem natDigits_ne_nil (n : ℕ) : natDigits n ≠ [] := by
  unfold natDigits
  split
  · simp
  · intro h
    have h2 : natDigitsRev n = [] := by
      have := congrArg List.reverse h
      simpa using this
    rw [natDigitsRev_succ n ‹n ≠ 0›] at h2
    cases h2

theorem digitsVal_natDigitsRev (n : ℕ) (hn : n ≠ 0) :
    digitsVal (natDigitsRev n).reverse = n := by
  induction n using Nat.strong_induction_on with
  | _ n ih =>
    rw [natDigitsRev_succ n hn, List.reverse_cons]
    rw [digitsVal_append]
    simp only [List.foldl_cons, List.foldl_nil]
    rw [digitChar_toNat (Nat.mod_lt _ (by norm_num))]
    by_cases h0 : n / 10 = 0
    · rw [h0]
      simp only [natDigitsRev_zero, List.reverse_nil, digitsVal, List.foldl_nil]
      omega
    · rw [ih (n / 10) (Nat.div_lt_self (by omega) (by norm_num)) h0]
      omega

theorem digitsVal_natDigits (n : ℕ) : digitsVal (natDigits n) = n := by
  unfold natDigits
  split
  · subst ‹n = 0›
    simp [digitsVal, digitChar]
  · exact digitsVal_natDigitsRev n ‹n ≠ 0›

theorem natDigits_injective : Function.Injective natDigits := by
  intro a b h
  have ha := digitsVal_natDigits a
  have hb := digitsVal_natDigits b
  rw [← ha, ← hb, h]

theorem intStr_injective_of_nonneg {a b : ℤ} (ha : 0 ≤ a) (hb : 0 ≤ b)
    (h : intStr a = intStr b) : a = b := by
  unfold intStr at h
  rw [if_neg (by omega), if_neg (by omega)] at h
  have := natDigits_injective h
  omega

theorem coordVal_memoCoord (c : Coordinate) : coordVal (memoCoord c) = coordVal c := by
  unfold coordVal memoCoord Coordinate.as_gatherer_coord
  by_cases h : c.coord = 0
  · by_cases hp : packCoord c.x c.y = 0 <;> simp [h, hp]
  · simp [h]

theorem ofObjects_eq_aggregateObs (ty : List Char) (objects : List WowheadObject) :
    (Aggregate.ofObjects ty objects).zones = aggregateObs (objects.flatMap objObs) := by
  unfold Aggregate.ofObjects aggregateObs
  simp only
  generalize ([] : List GathererZone) = zs
  induction objects generalizing zs with
  | nil => simp
  | cons o rest ih =>
    rw [List.foldl_cons, List.flatMap_cons, List.foldl_append, ih]
    congr 1
    unfold objObs
    generalize zs = zs0
    induction o.coordinates generalizing zs0 with
    | nil => simp
    | cons zc rest2 ih2 =>
      rw [List.foldl_cons, List.flatMap_cons, List.foldl_append, ih2]
      congr 1
      generalize zs0 = zs1
      induction zc.2 generalizing zs1 with
      | nil => simp
      | cons c rest3 ih3 => rw [List.foldl_cons, List.map_cons, List.foldl_cons, ih3]

theorem bumpCoord_x (c : Coordinate) : (bumpCoord c).x = c.x := rfl

theorem bumpCoord_y (c : Coordinate) : (bumpCoord c).y = c.y := rfl

theorem coordVal_of_coord_ne_zero {c : Coordinate} (h : c.coord ≠ 0) : coordVal c = c.coord := by
  unfold coordVal Coordinate.as_gatherer_coord
  simp [h]

theorem bumpChain_coord {c : Coordinate} (h : 0 ≤ coordVal c) (i : ℕ) :
    (bumpChain c (i + 1)).coord = coordVal c + 1 + i := by
  induction i with
  | zero => simp [bumpChain, bumpCoord]
  | succ j ih =>
    show (bumpCoord (bumpChain c (j + 1))).coord = _
    unfold bumpCoord
    simp only
    rw [coordVal_of_coord_ne_zero (by rw [ih]; omega), ih]
    push_cast
    ring

theorem bumpChain_shift (c : Coordinate) (i : ℕ) :
    bumpChain (bumpCoord c) i = bumpChain c (i + 1) := by
  induction i with
  | zero => rfl
  | succ m ihm =>
    show bumpCoord (bumpChain (bumpCoord c) m) = bumpCoord (bumpChain c (m + 1))
    rw [ihm]

theorem bumpChain_x (c : Coordinate) (i : ℕ) : (bumpChain c i).x = c.x := by
  induction i with
  | zero => rfl
  | succ j ih => rw [bumpChain, bumpCoord_x, ih]

theorem bumpChain_y (c : Coordinate) (i : ℕ) : (bumpChain c i).y = c.y := by
  induction i with
  | zero => rfl
  | succ j ih => rw [bumpChain, bumpCoord_y, ih]

theorem bumpChain_injective {c : Coordinate} (h : 0 ≤ coordVal c) {i j : ℕ}
    (hij : i ≠ j) : bumpChain c i ≠ bumpChain c j := by
  have key : ∀ a b : ℕ, a < b → bumpChain c a ≠ bumpChain c b := by
    intro a b hab heq
    have hcb := bumpChain_coord h (b - 1)
    have hb : bumpChain c b = bumpChain c ((b - 1) + 1) := by
      congr 1
      omega
    match a, hab with
    | 0, _ =>
      have : c.coord = (bumpChain c b).coord := by rw [← heq]; rfl
      rw [hb, bumpChain_coord h (b - 1)] at this
      by_cases hz : c.coord = 0
      · rw [hz] at this
        unfold coordVal Coordinate.as_gatherer_coord at this h
        rw [if_pos hz] at this h
        simp only at this h
        omega
      · rw [coordVal_of_coord_ne_zero hz] at this
        omega
    | a' + 1, _ =>
      have : (bumpChain c (a' + 1)).coord = (bumpChain c b).coord := by rw [heq]
      rw [hb, bumpChain_coord h (b - 1), bumpChain_coord h a'] at this
      omega
  rcases Nat.lt_or_ge i j with hlt | hge
  · exact key i j hlt
  · have hlt : j < i := by omega
    exact fun heq => key j i hlt heq.symm

theorem resolveFuel_not_mem (occ : List Coordinate) (c : Coordinate) (fuel : ℕ)
    (h : ∃ i < fuel, bumpChain c i ∉ occ) : resolveFuel fuel occ c ∉ occ := by
  induction fuel generalizing c with
  | zero =>
    obtain ⟨i, hi, _⟩ := h
    omega
  | succ n ih =>
    rw [resolveFuel]
    by_cases hc : c ∈ occ
    · rw [if_pos hc]
      apply ih
      obtain ⟨i, hi, hni⟩ := h
      match i, hni with
      | 0, hni => exact absurd hc hni
      | i' + 1, hni =>
        refine ⟨i', by omega, ?_⟩
        rw [bumpChain_shift]
        exact hni
    · rw [if_neg hc]
      exact hc

theorem exists_chain_not_mem (occ : List Coordinate) (c : Coordinate)
    (h : 0 ≤ coordVal c) : ∃ i < occ.length + 1, bumpChain c i ∉ occ := by
  by_contra hcon
  push_neg at hcon
  have hmem : ∀ i < occ.length + 1, bumpChain c i ∈ occ := hcon
  have hinj : Set.InjOn (bumpChain c) (Finset.range (occ.length + 1)) := by
    intro a _ b _ hab
    by_contra hne
    exact bumpChain_injective h hne hab
  have hsub : (Finset.range (occ.length + 1)).image (bumpChain c) ⊆ occ.toFinset := by
    intro x hx
    simp only [Finset.mem_image, Finset.mem_range] at hx
    obtain ⟨i, hi, rfl⟩ := hx
    simpa using hmem i hi
  have hcard := Finset.card_le_card hsub
  rw [Finset.card_image_of_injOn hinj, Finset.card_range] at hcard
  have := occ.toFinset_card_le
  omega

/-- The collision loop always exits (within its fuel) on a coordinate that is
no longer in the occupied list, provided the candidate's packed value is
non-negative. -/
theorem resolveCoord_not_mem (occ : List Coordinate) (c : Coordinate)
    (h : 0 ≤ coordVal c) : resolveCoord occ c ∉ occ :=
  resolveFuel_not_mem occ c (occ.length + 1) (exists_chain_not_mem occ c h)

/-! ### Structural distinctness of coordinates within a zone -/

theorem addToZones_nodup (zs : List GathererZone) (z : Zone) (e : GathererEntry)
    (hz : ∀ gz ∈ zs, (gz.entries.map (·.coordinate)).Nodup)
    (he : 0 ≤ coordVal e.coordinate) :
    ∀ gz ∈ addToZones zs z e, (gz.entries.map (·.coordinate)).Nodup := by
  induction zs with
  | nil =>
    intro gz hgz
    simp only [addToZones, List.mem_singleton] at hgz
    subst hgz
    simp
  | cons gz0 rest ih =>
    intro gz hgz
    rw [addToZones] at hgz
    by_cases hmatch : gz0.zone = z
    · rw [if_pos hmatch] at hgz
      rcases List.mem_cons.mp hgz with hgz | hgz
      · subst hgz
        simp only [List.map_append, List.map_cons, List.map_nil]
        rw [List.nodup_append]
        refine ⟨hz gz0 (by simp), by simp, ?_⟩
        intro cres hcres hcmem
        simp only [List.mem_singleton] at hcmem
        subst hcmem
        exact absurd hcres (resolveCoord_not_mem (gz0.entries.map (·.coordinate)) e.coordinate he)
      · exact hz gz (List.mem_cons_of_mem _ hgz)
    · rw [if_neg hmatch] at hgz
      rcases List.mem_cons.mp hgz with hgz | hgz
      · subst hgz
        exact hz gz (by simp)
      · exact ih (fun g hg => hz g (List.mem_cons_of_mem _ hg)) gz hgz

theorem aggregateObs_fold_nodup : ∀ (obs : List (Zone × GathererEntry))
    (zs : List GathererZone),
    (∀ p ∈ obs, 0 ≤ coordVal p.2.coordinate) →
    (∀ gz ∈ zs, (gz.entries.map (·.coordinate)).Nodup) →
    ∀ gz ∈ obs.foldl (fun acc p => addToZones acc p.1 p.2) zs,
      (gz.entries.map (·.coordinate)).Nodup := by
  intro obs
  induction obs with
  | nil => intro zs _ hz; simpa using hz
  | cons p rest ih =>
    intro zs hobs hz
    rw [List.foldl_cons]
    exact ih (addToZones zs p.1 p.2) (fun q hq => hobs q (List.mem_cons_of_mem _ hq))
      (addToZones_nodup zs p.1 p.2 hz (hobs p (by simp)))

/-- Within each zone of an aggregation run over observations with
non-negative packed values, the coordinate records are pairwise distinct. -/
theorem aggregateObs_nodup (obs : List (Zone × GathererEntry))
    (hobs : ∀ p ∈ obs, 0 ≤ coordVal p.2.coordinate) :
    ∀ gz ∈ aggregateObs obs, (gz.entries.map (·.coordinate)).Nodup :=
  aggregateObs_fold_nodup obs [] hobs (by simp)

/-- Python whitespace of the serialized format: `\s` on the ASCII subset
(space, tab, newline, carriage return, form feed, vertical tab). -/
theorem isWs_nl : isWs (Char.ofNat 10) = true := by decide

theorem length_dropWhile_le {p : Char → Bool} (l : List Char) :
    (l.dropWhile p).length ≤ l.length := by
  induction l with
  | nil => simp [List.dropWhile]
  | cons c r ih =>
    rw [List.dropWhile]
    by_cases hp : p c
    · rw [hp]
      simp only [List.length_cons]
      omega
    · rw [Bool.not_eq_true] at hp
      rw [hp]

theorem matchEqNum_length {r3 : List Char} {v : ℕ} {r : List Char}
    (h : matchEqNum r3 = some (v, r)) : r.length < r3.length := by
  unfold matchEqNum at h
  split at h
  case h_2 => cases h
  case h_1 c3 r5 hdw =>
    split at h
    case isFalse => cases h
    case isTrue h3 =>
      simp only at h
      split at h
      case isTrue => cases h
      case isFalse hvs =>
        injection h with h2
        injection h2 with h2a h2b
        subst h2b
        have l1 : ((r5.dropWhile isWs).dropWhile isDigit).length ≤ (r5.dropWhile isWs).length :=
          length_dropWhile_le _
        have l2 : (r5.dropWhile isWs).length ≤ r5.length := length_dropWhile_le _
        have l3 : (c3 :: r5).length ≤ r3.length := by
          rw [← hdw]; exact length_dropWhile_le _
        simp only [List.length_cons] at l3
        omega

theorem matchPairAt_length {l : List Char} {k v : ℕ} {r : List Char}
    (h : matchPairAt l = some (k, v, r)) : r.length < l.length := by
  unfold matchPairAt at h
  split at h
  case h_2 => cases h
  case h_1 c r1 =>
    split at h
    case isFalse => cases h
    case isTrue hc =>
      simp only at h
      split at h
      case isTrue => cases h
      case isFalse hds =>
        split at h
        case h_2 => cases h
        case h_1 c2 r3 hdd =>
          split at h
          case isFalse => cases h
          case isTrue h2 =>
            split at h
            case h_2 => cases h
            case h_1 v0 r0 heq =>
              injection h with h2x
              injection h2x with h2a h2b
              injection h2b with h2c h2d
              subst h2d
              have l1 := matchEqNum_length heq
              have l2 : (c2 :: r3).length ≤ r1.length := by
                rw [← hdd]; exact length_dropWhile_le _
              simp only [List.length_cons] at l2 ⊢
              omega

theorem matchEntryAt_length {l : List Char} {k : ℕ} {v : RawVal} {r : List Char}
    (h : matchEntryAt l = some (k, v, r)) : r.length < l.length := by
  unfold matchEntryAt at h
  split at h
  case h_2 => cases h
  case h_1 c r1 =>
    split at h
    case isFalse => cases h
    case isTrue hc =>
      simp only at h
      split at h
      case isTrue => cases h
      case isFalse hds =>
        split at h
        case h_2 => cases h
        case h_1 c2 r3 hdd =>
          have l2 : (c2 :: r3).length ≤ r1.length := by
            rw [← hdd]; exact length_dropWhile_le _
          simp only [List.length_cons] at l2
          split at h
          case isFalse => cases h
          case isTrue h2 =>
            split at h
            case h_2 => cases h
            case h_1 c3 r5 hdw =>
              have l3 : (c3 :: r5).length ≤ r3.length := by
                rw [← hdw]; exact length_dropWhile_le _
              simp only [List.length_cons] at l3
              split at h
              case isFalse => cases h
              case isTrue h3 =>
                split at h
                case isTrue hvs =>
                  injection h with h2x
                  injection h2x with h2a h2b
                  injection h2b with h2c h2d
                  subst h2d
                  have l4 : ((r5.dropWhile isWs).dropWhile isDigit).length ≤
                      (r5.dropWhile isWs).length := length_dropWhile_le _
                  have l5 : (r5.dropWhile isWs).length ≤ r5.length := length_dropWhile_le _
                  simp only [List.length_cons]
                  omega
                case isFalse hvs =>
                  split at h
                  case h_2 => cases h
                  case h_1 c4 r7 hr6 =>
                    have l5 : (c4 :: r7).length ≤ r5.length := by
                      rw [← hr6]; exact length_dropWhile_le _
                    simp only [List.length_cons] at l5
                    split at h
                    case isFalse => cases h
                    case isTrue h4 =>
                      split at h
                      case h_2 => cases h
                      case h_1 c5 r8 hdb =>
                        split at h
                        case isFalse => cases h
                        case isTrue h5 =>
                          injection h with h2x
                          injection h2x with h2a h2b
                          injection h2b with h2c h2d
                          subst h2d
                          have l6 : (c5 :: r8).length ≤ r7.length := by
                            rw [← hdb]; exact length_dropWhile_le _
                          simp only [List.length_cons] at l6
                          simp only [List.length_cons]
                          omega

theorem scanPairsF_congr : ∀ (f1 f2 : ℕ) (l : List Char), l.length ≤ f1 → l.length ≤ f2 →
    scanPairsF f1 l = scanPairsF f2 l := by
  intro f1
  induction f1 with
  | zero =>
    intro f2 l h1 _
    have : l = [] := by
      cases l
      · rfl
      · simp at h1
    subst this
    cases f2 <;> rfl
  | succ f ih =>
    intro f2 l h1 h2
    cases l with
    | nil => cases f2 <;> rfl
    | cons c rest =>
      cases f2 with
      | zero => simp at h2
      | succ f2x =>
        rw [scanPairsF, scanPairsF]
        cases hm : matchPairAt (c :: rest) with
        | some p =>
          obtain ⟨k, v, r⟩ := p
          have hr := matchPairAt_length hm
          simp only [List.length_cons] at hr h1 h2
          show (k, v) :: scanPairsF f r = (k, v) :: scanPairsF f2x r
          rw [ih f2x r (by omega) (by omega)]
        | none =>
          simp only [List.length_cons] at h1 h2
          show scanPairsF f rest = scanPairsF f2x rest
          rw [ih f2x rest (by omega) (by omega)]

theorem scanPairs_nil : scanPairs [] = [] := rfl

theorem scanPairs_cons (c : Char) (rest : List Char) :
    scanPairs (c :: rest) =
      match matchPairAt (c :: rest) with
      | some (k, v, r) => (k, v) :: scanPairs r
      | none => scanPairs rest := by
  show scanPairsF (rest.length + 1) (c :: rest) = _
  rw [scanPairsF]
  cases hm : matchPairAt (c :: rest) with
  | some p =>
    obtain ⟨k, v, r⟩ := p
    have hr := matchPairAt_length hm
    simp only [List.length_cons] at hr
    show (k, v) :: scanPairsF rest.length r = (k, v) :: scanPairs r
    rw [scanPairsF_congr rest.length r.length r (by omega) (by omega)]
    rfl
  | none => rfl

theorem scanEntriesF_congr : ∀ (f1 f2 : ℕ) (l : List Char), l.length ≤ f1 → l.length ≤ f2 →
    scanEntriesF f1 l = scanEntriesF f2 l := by
  intro f1
  induction f1 with
  | zero =>
    intro f2 l h1 _
    have : l = [] := by
      cases l
      · rfl
      · simp at h1
    subst this
    cases f2 <;> rfl
  | succ f ih =>
    intro f2 l h1 h2
    cases l with
    | nil => cases f2 <;> rfl
    | cons c rest =>
      cases f2 with
      | zero => simp at h2
      | succ f2x =>
        rw [scanEntriesF, scanEntriesF]
        cases hm : matchEntryAt (c :: rest) with
        | some p =>
          obtain ⟨k, v, r⟩ := p
          have hr := matchEntryAt_length hm
          simp only [List.length_cons] at hr h1 h2
          show (k, v) :: scanEntriesF f r = (k, v) :: scanEntriesF f2x r
          rw [ih f2x r (by omega) (by omega)]
        | none =>
          simp only [List.length_cons] at h1 h2
          show scanEntriesF f rest = scanEntriesF f2x rest
          rw [ih f2x rest (by omega) (by omega)]

theorem scanEntries_nil : scanEntries [] = [] := rfl

theorem scanEntries_cons (c : Char) (rest : List Char) :
    scanEntries (c :: rest) =
      match matchEntryAt (c :: rest) with
      | some (k, v, r) => (k, v) :: scanEntries r
      | none => scanEntries rest := by
  show scanEntriesF (rest.length + 1) (c :: rest) = _
  rw [scanEntriesF]
  cases hm : matchEntryAt (c :: rest) with
  | some p =>
    obtain ⟨k, v, r⟩ := p
    have hr := matchEntryAt_length hm
    simp only [List.length_cons] at hr
    show (k, v) :: scanEntriesF rest.length r = (k, v) :: scanEntries r
    rw [scanEntriesF_congr rest.length r.length r (by omega) (by omega)]
    rfl
  | none => rfl

theorem isDigit_not_ws {c : Char} (h : isDigit c = true) : isWs c = false := by
  cases hw : isWs c
  · rfl
  · exfalso
    simp only [isDigit, Bool.and_eq_true, decide_eq_true_eq] at h
    simp only [isWs, Bool.or_eq_true, Bool.and_eq_true, decide_eq_true_eq] at hw
    omega

theorem isDigit_not_brace {c : Char} (h : isDigit c = true) :
    (decide (¬c = Char.ofNat 123 ∧ ¬c = Char.ofNat 125)) = true := by
  rw [decide_eq_true_eq]
  constructor
  · intro he
    rw [he] at h
    exact absurd h (by decide)
  · intro he
    rw [he] at h
    exact absurd h (by decide)

theorem takeWhile_split {p : Char → Bool} :
    ∀ (ds : List Char) (c0 : Char) (r : List Char), (∀ d ∈ ds, p d = true) → p c0 = false →
    (ds ++ c0 :: r).takeWhile p = ds := by
  intro ds
  induction ds with
  | nil =>
    intro c0 r _ hc0
    rw [List.nil_append, List.takeWhile_cons, hc0]
    rfl
  | cons d ds2 ih =>
    intro c0 r hds hc0
    rw [List.cons_append, List.takeWhile_cons, hds d (by simp), if_pos rfl,
      ih c0 r (fun x hx => hds x (by simp [hx])) hc0]

theorem dropWhile_split {p : Char → Bool} :
    ∀ (ds : List Char) (c0 : Char) (r : List Char), (∀ d ∈ ds, p d = true) → p c0 = false →
    (ds ++ c0 :: r).dropWhile p = c0 :: r := by
  intro ds
  induction ds with
  | nil =>
    intro c0 r _ hc0
    rw [List.nil_append, List.dropWhile_cons, hc0]
    rfl
  | cons d ds2 ih =>
    intro c0 r hds hc0
    rw [List.cons_append, List.dropWhile_cons, hds d (by simp), if_pos rfl,
      ih c0 r (fun x hx => hds x (by simp [hx])) hc0]

/-- Dropping whitespace stops at the first digit of a rendered number. -/
theorem dropWhile_ws_digits (v : ℕ) (r : List Char) :
    (Char.ofNat 32 :: (natDigits v ++ r)).dropWhile isWs = natDigits v ++ r := by
  rw [List.dropWhile_cons, if_pos (by decide)]
  cases hnd : natDigits v with
  | nil => exact absurd hnd (natDigits_ne_nil v)
  | cons d ds =>
    have hd : isDigit d = true := natDigits_digits v d (by rw [hnd]; simp)
    rw [List.cons_append, List.dropWhile_cons, if_neg (by simp [isDigit_not_ws hd])]

/-- One successful attempt of the shared `\s*=\s*(\d+)` suffix of the inner
pattern, on the exact text the serializer writes. -/
theorem matchEqNum_shape (v : ℕ) (c0 : Char) (r : List Char) (hc0 : isDigit c0 = false) :
    matchEqNum (Char.ofNat 32 :: Char.ofNat 61 :: Char.ofNat 32 :: (natDigits v ++ c0 :: r)) =
      some (v, c0 :: r) := by
  have hws1 : (Char.ofNat 32 :: Char.ofNat 61 :: Char.ofNat 32 ::
      (natDigits v ++ c0 :: r)).dropWhile isWs =
      Char.ofNat 61 :: (Char.ofNat 32 :: (natDigits v ++ c0 :: r)) := by
    rw [List.dropWhile_cons, if_pos (by decide), List.dropWhile_cons, if_neg (by decide)]
  have h3 : (natDigits v ++ c0 :: r).takeWhile isDigit = natDigits v :=
    takeWhile_split (natDigits v) c0 r (natDigits_digits v) hc0
  have h4 : (natDigits v ++ c0 :: r).dropWhile isDigit = c0 :: r :=
    dropWhile_split (natDigits v) c0 r (natDigits_digits v) hc0
  simp only [matchEqNum, hws1, dropWhile_ws_digits, h3, h4, digitsVal_natDigits]
  simp [natDigits_ne_nil]

/-- One successful attempt of the inner pattern `\[(\d+)\]\s*=\s*(\d+)` on
a serialized pair line. -/
theorem matchPairAt_shape (c v : ℕ) (c0 : Char) (r : List Char) (hc0 : isDigit c0 = false) :
    matchPairAt (Char.ofNat 91 :: (natDigits c ++ Char.ofNat 93 :: Char.ofNat 32 ::
      Char.ofNat 61 :: Char.ofNat 32 :: (natDigits v ++ c0 :: r))) = some (c, v, c0 :: r) := by
  have h1 : (natDigits c ++ Char.ofNat 93 :: Char.ofNat 32 :: Char.ofNat 61 ::
      Char.ofNat 32 :: (natDigits v ++ c0 :: r)).takeWhile isDigit = natDigits c :=
    takeWhile_split (natDigits c) _ _ (natDigits_digits c) (by decide)
  have h2 : (natDigits c ++ Char.ofNat 93 :: Char.ofNat 32 :: Char.ofNat 61 ::
      Char.ofNat 32 :: (natDigits v ++ c0 :: r)).dropWhile isDigit =
      Char.ofNat 93 :: (Char.ofNat 32 :: Char.ofNat 61 :: Char.ofNat 32 ::
        (natDigits v ++ c0 :: r)) :=
    dropWhile_split (natDigits c) _ _ (natDigits_digits c) (by decide)
  simp only [matchPairAt, h1, h2, matchEqNum_shape v c0 r hc0, digitsVal_natDigits]
  simp [natDigits_ne_nil]

/-- One successful attempt of the outer pattern on a serialized zone
block: the alternation falls through to the `{[^{}]*}` branch and captures
exactly the zone's inner text. -/
theorem matchEntryAt_shape (z : ℕ) (content r : List Char)
    (hcontent : ∀ ch ∈ content, (decide (¬ch = Char.ofNat 123 ∧ ¬ch = Char.ofNat 125)) = true) :
    matchEntryAt (Char.ofNat 91 :: (natDigits z ++ Char.ofNat 93 :: Char.ofNat 32 ::
      Char.ofNat 61 :: Char.ofNat 32 :: Char.ofNat 123 :: (content ++ Char.ofNat 125 :: r))) =
      some (z, RawVal.tbl content, r) := by
  have h1 : (natDigits z ++ Char.ofNat 93 :: Char.ofNat 32 :: Char.ofNat 61 ::
      Char.ofNat 32 :: Char.ofNat 123 :: (content ++ Char.ofNat 125 :: r)).takeWhile isDigit =
      natDigits z :=
    takeWhile_split (natDigits z) _ _ (natDigits_digits z) (by decide)
  have h2 : (natDigits z ++ Char.ofNat 93 :: Char.ofNat 32 :: Char.ofNat 61 ::
      Char.ofNat 32 :: Char.ofNat 123 :: (content ++ Char.ofNat 125 :: r)).dropWhile isDigit =
      Char.ofNat 93 :: (Char.ofNat 32 :: Char.ofNat 61 :: Char.ofNat 32 ::
        Char.ofNat 123 :: (content ++ Char.ofNat 125 :: r)) :=
    dropWhile_split (natDigits z) _ _ (natDigits_digits z) (by decide)
  have hws1 : (Char.ofNat 32 :: Char.ofNat 61 :: Char.ofNat 32 ::
      Char.ofNat 123 :: (content ++ Char.ofNat 125 :: r)).dropWhile isWs =
      Char.ofNat 61 :: (Char.ofNat 32 :: Char.ofNat 123 :: (content ++ Char.ofNat 125 :: r)) := by
    rw [List.dropWhile_cons, if_pos (by decide), List.dropWhile_cons, if_neg (by decide)]
  have hws2 : (Char.ofNat 32 :: Char.ofNat 123 :: (content ++ Char.ofNat 125 :: r)).dropWhile
      isWs = Char.ofNat 123 :: (content ++ Char.ofNat 125 :: r) := by
    rw [List.dropWhile_cons, if_pos (by decide), List.dropWhile_cons, if_neg (by decide)]
  have htw : (Char.ofNat 123 :: (content ++ Char.ofNat 125 :: r)).takeWhile isDigit =
      ([] : List Char) := by
    rw [List.takeWhile_cons, if_neg (by decide)]
  have hc1 : (content ++ Char.ofNat 125 :: r).takeWhile
      (fun ch => ch ≠ Char.ofNat 123 ∧ ch ≠ Char.ofNat 125) = content :=
    takeWhile_split content _ _ hcontent (by decide)
  have hc2 : (content ++ Char.ofNat 125 :: r).dropWhile
      (fun ch => ch ≠ Char.ofNat 123 ∧ ch ≠ Char.ofNat 125) = Char.ofNat 125 :: r :=
    dropWhile_split content _ _ hcontent (by decide)
  simp only [matchEntryAt, h1, h2, hws1, hws2, htw, hc1, hc2, digitsVal_natDigits]
  simp [natDigits_ne_nil]

theorem matchPairAt_skip {c : Char} (l : List Char) (hc : ¬c = Char.ofNat 91) :
    matchPairAt (c :: l) = none := by
  simp only [matchPairAt]
  rw [if_neg hc]

theorem matchEntryAt_skip {c : Char} (l : List Char) (hc : ¬c = Char.ofNat 91) :
    matchEntryAt (c :: l) = none := by
  simp only [matchEntryAt]
  rw [if_neg hc]

/-- `finditer` never starts a match inside text that holds no `[`. -/
theorem scanPairs_skip : ∀ (pre rest : List Char), (∀ ch ∈ pre, ¬ch = Char.ofNat 91) →
    scanPairs (pre ++ rest) = scanPairs rest := by
  intro pre
  induction pre with
  | nil => intro rest _; rfl
  | cons c pre2 ih =>
    intro rest hpre
    rw [List.cons_append, scanPairs_cons, matchPairAt_skip _ (hpre c (by simp))]
    exact ih rest (fun x hx => hpre x (by simp [hx]))

theorem scanEntries_skip : ∀ (pre rest : List Char), (∀ ch ∈ pre, ¬ch = Char.ofNat 91) →
    scanEntries (pre ++ rest) = scanEntries rest := by
  intro pre
  induction pre with
  | nil => intro rest _; rfl
  | cons c pre2 ih =>
    intro rest hpre
    rw [List.cons_append, scanEntries_cons, matchEntryAt_skip _ (hpre c (by simp))]
    exact ih rest (fun x hx => hpre x (by simp [hx]))

/-- The inner scan reads back exactly the pairs whose lines were written. -/
theorem scanPairs_flat : ∀ (ps : List (ℕ × ℕ)),
    scanPairs (ps.flatMap (fun p => pairLine p.1 p.2 ++ [Char.ofNat 10])) = ps := by
  intro ps
  induction ps with
  | nil => rfl
  | cons p ps2 ih =>
    obtain ⟨c, v⟩ := p
    have hsh : ((c, v) :: ps2).flatMap (fun p => pairLine p.1 p.2 ++ [Char.ofNat 10]) =
        Char.ofNat 91 :: (natDigits c ++ Char.ofNat 93 :: Char.ofNat 32 :: Char.ofNat 61 ::
          Char.ofNat 32 :: (natDigits v ++ Char.ofNat 44 :: Char.ofNat 10 ::
            ps2.flatMap (fun p => pairLine p.1 p.2 ++ [Char.ofNat 10]))) := by
      simp [pairLine, List.flatMap_cons]
    rw [hsh, scanPairs_cons, matchPairAt_shape c v (Char.ofNat 44) _ (by decide)]
    show (c, v) :: scanPairs (Char.ofNat 44 :: Char.ofNat 10 ::
      ps2.flatMap (fun p => pairLine p.1 p.2 ++ [Char.ofNat 10])) = (c, v) :: ps2
    rw [show scanPairs (Char.ofNat 44 :: Char.ofNat 10 ::
        ps2.flatMap (fun p => pairLine p.1 p.2 ++ [Char.ofNat 10])) =
        scanPairs (ps2.flatMap (fun p => pairLine p.1 p.2 ++ [Char.ofNat 10])) from
      scanPairs_skip [Char.ofNat 44, Char.ofNat 10] _ (by decide), ih]

theorem scanPairs_innerText (ps : List (ℕ × ℕ)) : scanPairs (innerText ps) = ps := by
  rw [show scanPairs (innerText ps) =
      scanPairs (ps.flatMap (fun p => pairLine p.1 p.2 ++ [Char.ofNat 10])) from
    scanPairs_skip [Char.ofNat 10] _ (by decide), scanPairs_flat]

/-- Every character of a zone's captured inner text is brace-free, so the
outer pattern's `[^{}]*` consumes all of it. -/
theorem innerText_no_brace (ps : List (ℕ × ℕ)) :
    ∀ ch ∈ innerText ps, (decide (¬ch = Char.ofNat 123 ∧ ¬ch = Char.ofNat 125)) = true := by
  intro ch hch
  rw [decide_eq_true_eq]
  have hcases : isDigit ch = true ∨ ch = Char.ofNat 10 ∨ ch = Char.ofNat 91 ∨
      ch = Char.ofNat 93 ∨ ch = Char.ofNat 32 ∨ ch = Char.ofNat 61 ∨ ch = Char.ofNat 44 := by
    simp only [innerText, List.mem_cons, List.mem_flatMap, List.mem_append,
      List.mem_singleton] at hch
    rcases hch with h | ⟨p, _, h⟩
    · exact Or.inr (Or.inl h)
    · rcases h with h | h | h
      · simp only [pairLine, List.mem_cons, List.mem_append, List.mem_singleton] at h
        rcases h with h | h | h | h | h | h | h | h | h
        · exact Or.inr (Or.inr (Or.inl h))
        · exact Or.inl (natDigits_digits _ ch h)
        · exact Or.inr (Or.inr (Or.inr (Or.inl h)))
        · exact Or.inr (Or.inr (Or.inr (Or.inr (Or.inl h))))
        · exact Or.inr (Or.inr (Or.inr (Or.inr (Or.inr (Or.inl h)))))
        · exact Or.inr (Or.inr (Or.inr (Or.inr (Or.inl h))))
        · exact Or.inl (natDigits_digits _ ch h)
        · exact Or.inr (Or.inr (Or.inr (Or.inr (Or.inr (Or.inr h)))))
        · exact absurd h (by simp)
      · exact Or.inr (Or.inl h)
      · exact absurd h (by simp)
  rcases hcases with h | h
  · constructor
    · intro he
      rw [he] at h
      exact absurd h (by decide)
    · intro he
      rw [he] at h
      exact absurd h (by decide)
  · rcases h with h | h | h | h | h | h <;> subst h <;> decide

/-- The outer scan reads back one table-valued entry per serialized zone
block, capturing the zone's inner text. -/
theorem scanEntries_blocks : ∀ (zps : List (ℕ × List (ℕ × ℕ))),
    scanEntries (blocksText zps) = zps.map (fun q => (q.1, RawVal.tbl (innerText q.2))) := by
  intro zps
  induction zps with
  | nil => decide
  | cons q zps2 ih =>
    obtain ⟨z, ps⟩ := q
    have hsh : blocksText ((z, ps) :: zps2) =
        Char.ofNat 91 :: (natDigits z ++ Char.ofNat 93 :: Char.ofNat 32 :: Char.ofNat 61 ::
          Char.ofNat 32 :: Char.ofNat 123 :: (innerText ps ++ Char.ofNat 125 ::
            Char.ofNat 44 :: Char.ofNat 10 :: blocksText zps2)) := by
      simp [blocksText, zoneBlock, List.flatMap_cons]
    rw [hsh, scanEntries_cons, matchEntryAt_shape z (innerText ps) _ (innerText_no_brace ps)]
    show (z, RawVal.tbl (innerText ps)) ::
        scanEntries (Char.ofNat 44 :: Char.ofNat 10 :: blocksText zps2) = _
    rw [show scanEntries (Char.ofNat 44 :: Char.ofNat 10 :: blocksText zps2) =
        scanEntries (blocksText zps2) from
      scanEntries_skip [Char.ofNat 44, Char.ofNat 10] _ (by decide), ih]
    rfl

theorem preJoin_cons (a : List Char) (ls : List (List Char)) :
    preJoin (a :: ls) = a ++ Char.ofNat 10 :: preJoin ls := by
  simp [preJoin]

theorem preJoin_flatMap {α : Type} (f : α → List (List Char)) :
    ∀ (l : List α), preJoin (l.flatMap f) = l.flatMap (fun x => preJoin (f x)) := by
  intro l
  induction l with
  | nil => rfl
  | cons a l2 ih =>
    simp only [List.flatMap_cons, preJoin, List.flatMap_append] at ih ⊢
    rw [ih]

/-- `"\n".join` with a distinguished last line: every earlier line gets a
trailing newline, the last one does not. -/
theorem joinNl_concat : ∀ (ls : List (List Char)) (last : List Char),
    joinNl (ls ++ [last]) = preJoin ls ++ last := by
  intro ls
  induction ls with
  | nil => intro last; rfl
  | cons a ls2 ih =>
    intro last
    cases ls2 with
    | nil => simp [joinNl, preJoin]
    | cons b ls3 =>
      show a ++ Char.ofNat 10 :: joinNl ((b :: ls3) ++ [last]) = _
      rw [ih]
      simp [preJoin]

/-- One zone's serialized lines, flattened by the join, are its block
followed by the separator `,\n`. -/
theorem preJoin_zone (z : ℕ) (zd : List (ℕ × ℕ)) :
    preJoin (((Char.ofNat 91 :: natDigits z) ++ ("] = ".toList) ++ [Char.ofNat 123]) ::
        (((sortedKeys zd).map (fun c =>
          (Char.ofNat 91 :: natDigits c) ++ ("] = ".toList) ++
            natDigits ((dget c zd).getD 0) ++ [Char.ofNat 44]))
          ++ [[Char.ofNat 125, Char.ofNat 44]])) =
      zoneBlock z (zonePairs zd) ++ [Char.ofNat 44, Char.ofNat 10] := by
  have hts : ("] = ".toList) =
      [Char.ofNat 93, Char.ofNat 32, Char.ofNat 61, Char.ofNat 32] := by decide
  simp [preJoin, zoneBlock, innerText, zonePairs, pairLine, hts, List.flatMap_append,
    List.flatMap_map, Function.comp]

/-- The serializer's output, reshaped into header + newline + blocks. -/
theorem serialize_eq (T : LuaTable) (name : List Char) :
    serialize_lua_table T name =
      (name ++ (" = ".toList) ++ [Char.ofNat 123]) ++
        Char.ofNat 10 :: blocksText (tableShape T) := by
  show joinNl (serializeLines T name) = _
  rw [show serializeLines T name =
      ((name ++ (" = ".toList) ++ [Char.ofNat 123]) ::
        (sortedKeys T).flatMap (fun z =>
          ((Char.ofNat 91 :: natDigits z) ++ ("] = ".toList) ++ [Char.ofNat 123]) ::
            (((sortedKeys ((dget z T).getD [])).map (fun c =>
              (Char.ofNat 91 :: natDigits c) ++ ("] = ".toList) ++
                natDigits ((dget c ((dget z T).getD [])).getD 0) ++ [Char.ofNat 44]))
            ++ [[Char.ofNat 125, Char.ofNat 44]]))) ++ [[Char.ofNat 125]] from rfl,
    joinNl_concat, preJoin_cons, preJoin_flatMap]
  simp only [preJoin_zone]
  simp [blocksText, tableShape, List.flatMap_map, Function.comp]

theorem dget_eq_none_of_not_mem {K V : Type} [DecidableEq K] (k : K) (d : List (K × V))
    (h : k ∉ dkeys d) : dget k d = none := by
  induction d with
  | nil => rfl
  | cons p rest ih =>
    simp only [dkeys, List.map_cons, List.mem_cons] at h
    rw [dget, if_neg (fun hh => h (Or.inl hh.symm))]
    exact ih (fun hh => h (Or.inr hh))

/-- Folding `d[k] = F k` over a key list: the last write wins, and every
listed key ends up mapped to its value. -/
theorem fold_key_fn {V : Type} (F : ℕ → V) :
    ∀ (ks : List ℕ) (acc : List (ℕ × V)) (key : ℕ),
    dget key (ks.foldl (fun d k => dset k (F k) d) acc) =
      if key ∈ ks then some (F key) else dget key acc := by
  intro ks
  induction ks with
  | nil =>
    intro acc key
    rw [List.foldl_nil, if_neg (by simp)]
  | cons k1 rest ih =>
    intro acc key
    rw [List.foldl_cons, ih]
    by_cases hk : key ∈ rest
    · rw [if_pos hk, if_pos (by simp [hk])]
    · rw [if_neg hk]
      by_cases hk1 : key = k1
      · subst hk1
        rw [dget_dset_same, if_pos (by simp)]
      · rw [dget_dset_other k1 key (F k1) acc hk1,
          if_neg (by simp only [List.mem_cons, not_or]; exact ⟨hk1, hk⟩)]

theorem dget_isSome_of_mem {K V : Type} [DecidableEq K] {k : K} :
    ∀ {d : List (K × V)}, k ∈ dkeys d → ∃ v, dget k d = some v := by
  intro d
  induction d with
  | nil =>
    intro h
    simp [dkeys] at h
  | cons p rest ih =>
    obtain ⟨k1, v1⟩ := p
    intro h
    by_cases hk : k1 = k
    · exact ⟨v1, by
        show (if k1 = k then some v1 else dget k rest) = some v1
        rw [if_pos hk]⟩
    · have h2 : k ∈ dkeys rest := by
        simp only [dkeys, List.map_cons, List.mem_cons] at h
        rcases h with h | h
        · exact absurd h.symm hk
        · exact h
      obtain ⟨v, hv⟩ := ih h2
      exact ⟨v, by
        show (if k1 = k then some v1 else dget k rest) = some v
        rw [if_neg hk, hv]⟩

theorem mem_dkeys_of_dget_some {K V : Type} [DecidableEq K] {k : K} {v : V} :
    ∀ {d : List (K × V)}, dget k d = some v → k ∈ dkeys d := by
  intro d
  induction d with
  | nil => intro h; cases h
  | cons p rest ih =>
    obtain ⟨k1, v1⟩ := p
    intro h
    by_cases hk : k1 = k
    · subst hk
      simp [dkeys]
    · have h2 : dget k rest = some v := by
        rw [show dget k ((k1, v1) :: rest) =
          (if k1 = k then some v1 else dget k rest) from rfl, if_neg hk] at h
        exact h
      simp only [dkeys, List.map_cons, List.mem_cons]
      exact Or.inr (ih h2)

/-- Parsing back a zone's inner text recovers the zone dict exactly (as a
dict: same lookups at every coordinate key). -/
theorem innerParse_innerText (zd : List (ℕ × ℕ)) :
    ∀ c2, dget c2 (innerParse (innerText (zonePairs zd))) = dget c2 zd := by
  intro c2
  have h1 : innerParse (innerText (zonePairs zd)) =
      (zonePairs zd).foldl (fun d p => dset p.1 p.2 d) [] := by
    unfold innerParse
    rw [scanPairs_innerText]
  rw [h1]
  have h2 : (zonePairs zd).foldl (fun d p => dset p.1 p.2 d) [] =
      (sortedKeys zd).foldl (fun d c => dset c ((dget c zd).getD 0) d) [] := by
    unfold zonePairs
    rw [List.foldl_map]
  rw [h2, fold_key_fn]
  by_cases hc : c2 ∈ dkeys zd
  · have hsort : c2 ∈ sortedKeys zd :=
      (List.perm_insertionSort (· ≤ ·) (zd.map Prod.fst)).mem_iff.mpr hc
    rw [if_pos hsort]
    obtain ⟨v, hv⟩ := dget_isSome_of_mem hc
    rw [hv]
    rfl
  · have hsort : c2 ∉ sortedKeys zd := fun hmem =>
      hc ((List.perm_insertionSort (· ≤ ·) (zd.map Prod.fst)).mem_iff.mp hmem)
    rw [if_neg hsort, dget_eq_none_of_not_mem _ _ hc]
    rfl

/-- Full description of the parsed-back serialization: exactly the zones
of `T` are present, each carrying the round-tripped inner dict. -/
theorem parse_serialize (T : LuaTable) (name : List Char)
    (hname : ∀ ch ∈ name, ¬ch = Char.ofNat 91) :
    ∀ z, dget z (parse_lua_table (serialize_lua_table T name)) =
      if z ∈ sortedKeys T then
        some (LuaField.tbl (innerParse (innerText (zonePairs ((dget z T).getD [])))))
      else none := by
  intro z
  have hts : (" = ".toList) = [Char.ofNat 32, Char.ofNat 61, Char.ofNat 32] := by decide
  have hpre : ∀ ch ∈ (name ++ (" = ".toList) ++ [Char.ofNat 123]) ++ [Char.ofNat 10],
      ¬ch = Char.ofNat 91 := by
    intro ch hch
    rw [hts] at hch
    simp only [List.mem_append, List.mem_cons, List.mem_singleton] at hch
    rcases hch with ((hch | hch) | hch) | hch
    · exact hname ch hch
    · rcases hch with hch | hch | hch | hch
      · subst hch; decide
      · subst hch; decide
      · subst hch; decide
      · exact absurd hch (by simp)
    · rcases hch with hch | hch
      · subst hch; decide
      · exact absurd hch (by simp)
    · rcases hch with hch | hch
      · subst hch; decide
      · exact absurd hch (by simp)
  have hscan : scanEntries (serialize_lua_table T name) =
      (tableShape T).map (fun q => (q.1, RawVal.tbl (innerText q.2))) := by
    rw [serialize_eq T name,
      show (name ++ (" = ".toList) ++ [Char.ofNat 123]) ++
          Char.ofNat 10 :: blocksText (tableShape T) =
        ((name ++ (" = ".toList) ++ [Char.ofNat 123]) ++ [Char.ofNat 10]) ++
          blocksText (tableShape T) from by simp,
      scanEntries_skip _ _ hpre, scanEntries_blocks]
  have hparse : parse_lua_table (serialize_lua_table T name) =
      (sortedKeys T).foldl (fun d z2 => dset z2
        (LuaField.tbl (innerParse (innerText (zonePairs ((dget z2 T).getD []))))) d) [] := by
    unfold parse_lua_table
    rw [hscan]
    unfold tableShape
    rw [List.map_map, List.foldl_map]
    rfl
  rw [hparse, fold_key_fn]
  by_cases hz : z ∈ sortedKeys T
  · rw [if_pos hz, if_pos hz]
  · rw [if_neg hz, if_neg hz]
    rfl

/-! ### Helper lemmas: small aggregation runs -/

theorem resolveCoord_of_not_mem (occ : List Coordinate) (c : Coordinate) (h : c ∉ occ) :
    resolveCoord occ c = c := by
  unfold resolveCoord
  rw [resolveFuel, if_neg h]

theorem coordVal_bumpCoord (c : Coordinate) (h : 0 ≤ coordVal c) :
    coordVal (bumpCoord c) = coordVal c + 1 := by
  have : (bumpCoord c).coord = coordVal c + 1 := rfl
  rw [coordVal_of_coord_ne_zero (by rw [this]; omega), this]

theorem bumpCoord_ne (c : Coordinate) (h : 0 ≤ coordVal c) : bumpCoord c ≠ c := by
  intro heq
  have hc : (bumpCoord c).coord = coordVal c + 1 := rfl
  rw [heq] at hc
  by_cases hz : c.coord = 0
  · unfold coordVal Coordinate.as_gatherer_coord at hc h
    rw [if_pos hz] at hc h
    simp only at hc h
    omega
  · rw [coordVal_of_coord_ne_zero hz] at hc
    omega

theorem resolveCoord_single (c : Coordinate) (h : 0 ≤ coordVal c) :
    resolveCoord [c] c = bumpCoord c := by
  unfold resolveCoord
  simp only [List.length_cons, List.length_nil]
  rw [resolveFuel, if_pos (by simp)]
  rw [resolveFuel, if_neg (by simp [bumpCoord_ne c h])]

/-- Two observations with identical coordinate records in the same zone:
the first is kept, the second is bumped once. -/
theorem aggregateObs_two_same (z : Zone) (c : Coordinate) (id1 id2 : List Char)
    (h : 0 ≤ coordVal c) :
    aggregateObs [(z, ⟨c, id1⟩), (z, ⟨c, id2⟩)] =
      [⟨z, [⟨c, id1⟩, ⟨bumpCoord c, id2⟩]⟩] := by
  show addToZones (addToZones [] z ⟨c, id1⟩) z ⟨c, id2⟩ = _
  rw [show addToZones [] z ⟨c, id1⟩ = [⟨z, [⟨c, id1⟩]⟩] from rfl]
  rw [addToZones, if_pos rfl]
  simp only [List.map_cons, List.map_nil]
  rw [resolveCoord_single c h]
  simp

/-- Two observations with distinct coordinate records in the same zone:
no collision is detected (the membership test is structural equality), so
neither is bumped — even when the packed values are equal. -/
theorem aggregateObs_two_diff (z : Zone) (c1 c2 : Coordinate) (id1 id2 : List Char)
    (h : c2 ≠ c1) :
    aggregateObs [(z, ⟨c1, id1⟩), (z, ⟨c2, id2⟩)] =
      [⟨z, [⟨c1, id1⟩, ⟨c2, id2⟩]⟩] := by
  show addToZones (addToZones [] z ⟨c1, id1⟩) z ⟨c2, id2⟩ = _
  rw [show addToZones [] z ⟨c1, id1⟩ = [⟨z, [⟨c1, id1⟩]⟩] from rfl]
  rw [addToZones, if_pos rfl]
  simp only [List.map_cons, List.map_nil]
  rw [resolveCoord_of_not_mem _ _ (by simp [h])]
  simp

/-! ### Helper lemmas: cache writes and counts -/

theorem wset_snapLookup (m : CacheMap) (ck ik v a b : List Char) :
    snapLookup (wset m ck ik v) a b =
      if a = ck ∧ b = ik then some v else snapLookup m a b := by
  unfold wset snapLookup
  by_cases hck : a = ck
  · subst hck
    rw [dget_dset_same]
    by_cases hik : b = ik
    · subst hik
      rw [if_pos ⟨rfl, rfl⟩]
      show dget b (dset b v ((dget a m).getD [])) = some v
      rw [dget_dset_same]
    · rw [if_neg (fun hh => hik hh.2)]
      show dget b (dset ik v ((dget a m).getD [])) = (dget a m).bind (dget b)
      rw [dget_dset_other _ _ _ _ hik]
      cases hda : dget a m <;> simp [dget]
  · rw [dget_dset_other _ _ _ _ hck, if_neg (fun hh => hck hh.1)]

theorem ensureKey_snapLookup (m : CacheMap) (ck a b : List Char) :
    snapLookup (ensureKey m ck) a b = snapLookup m a b := by
  unfold ensureKey snapLookup
  cases hd : dget ck m with
  | some i => rfl
  | none =>
    by_cases hck : a = ck
    · subst hck
      rw [dget_dset_same, hd]
      simp [dget]
    · rw [dget_dset_other _ _ _ _ hck]

theorem lastWrite_nil (a b : List Char) : lastWrite [] a b = none := rfl

theorem option_map_or {α β : Type} (f : α → β) (x y : Option α) :
    (x.or y).map f = (x.map f).or (y.map f) := by
  cases x <;> rfl

theorem lastWrite_cons (w : List Char × List Char × List Char)
    (ws : List (List Char × List Char × List Char)) (a b : List Char) :
    lastWrite (w :: ws) a b =
      (lastWrite ws a b).or (if w.1 = a ∧ w.2.1 = b then some w.2.2 else none) := by
  unfold lastWrite
  rw [List.reverse_cons, List.find?_append, option_map_or]
  congr 1
  by_cases hp : w.1 = a ∧ w.2.1 = b
  · rw [if_pos hp]
    simp [List.find?, hp]
  · rw [if_neg hp]
    simp [List.find?, hp]

theorem lastWrite_append (ws1 ws2 : List (List Char × List Char × List Char))
    (a b : List Char) :
    lastWrite (ws1 ++ ws2) a b = (lastWrite ws2 a b).or (lastWrite ws1 a b) := by
  unfold lastWrite
  rw [List.reverse_append, List.find?_append, option_map_or]

theorem option_or_push {α : Type} (X Y : Option α) (p : Prop) [Decidable p] (v : α) :
    X.or (if p then some v else Y) = (X.or (if p then some v else none)).or Y := by
  cases X with
  | some x => rfl
  | none =>
    by_cases hp : p
    · rw [if_pos hp, if_pos hp]
      rfl
    · rw [if_neg hp, if_neg hp]
      rfl

theorem processCoords_snapLookup (old : CacheMap) (ck gid : List Char) (m : CacheMap)
    (cs : List Coordinate) (a b : List Char) :
    snapLookup ((processCoords old ck gid m cs).1) a b =
      (lastWrite (cs.map (fun c => (ck, intStr (coordVal c), gid))) a b).or
        (snapLookup m a b) := by
  induction cs generalizing m with
  | nil => simp [processCoords, lastWrite_nil]
  | cons c cs ih =>
    show snapLookup ((processCoords old ck gid (wset m ck (intStr (coordVal c)) gid) cs).1) a b = _
    rw [ih, List.map_cons, lastWrite_cons, wset_snapLookup]
    rw [option_or_push]
    congr 2
    by_cases hp : ck = a ∧ intStr (coordVal c) = b
    · rw [if_pos hp, if_pos ⟨hp.1.symm, hp.2.symm⟩]
    · rw [if_neg hp, if_neg (fun hh => hp ⟨hh.1.symm, hh.2.symm⟩)]

theorem processZones_snapLookup (old : CacheMap) (ty gid : List Char) (m : CacheMap)
    (zs : List (Zone × List Coordinate)) (a b : List Char) :
    snapLookup ((processZones old ty gid m zs).1) a b =
      (lastWrite (zs.flatMap (zoneWrites ty gid)) a b).or (snapLookup m a b) := by
  induction zs generalizing m with
  | nil => simp [processZones, lastWrite_nil]
  | cons zc zs ih =>
    obtain ⟨z, cs⟩ := zc
    show snapLookup ((processZones old ty gid
      (processCoords old (cacheKey z ty) gid (ensureKey m (cacheKey z ty)) cs).1 zs).1) a b = _
    rw [ih, processCoords_snapLookup, ensureKey_snapLookup]
    rw [List.flatMap_cons, lastWrite_append]
    rw [Option.or_assoc]
    rfl

theorem nodeObs_eq_flatMap (node : WowheadObject) (ty : List Char) :
    nodeObs node ty = node.coordinates.flatMap (zoneWrites ty node.gathermate_id) := rfl

theorem count_node_coords_snapLookup (old : CacheMap) (m : CacheMap)
    (node : WowheadObject) (ty a b : List Char) :
    snapLookup ((count_node_coords old m node ty).1) a b =
      (lastWrite (nodeObs node ty) a b).or (snapLookup m a b) := by
  rw [nodeObs_eq_flatMap]
  exact processZones_snapLookup old ty node.gathermate_id m node.coordinates a b

theorem processNodes_snapLookup (old : CacheMap) (m : CacheMap) (ty : List Char)
    (nodes : List WowheadObject) (a b : List Char) :
    snapLookup ((processNodes old m ty nodes).1) a b =
      (lastWrite (nodes.flatMap (nodeObs · ty)) a b).or (snapLookup m a b) := by
  induction nodes generalizing m with
  | nil => simp [processNodes, lastWrite_nil]
  | cons n ns ih =>
    show snapLookup ((processNodes old (count_node_coords old m n ty).1 ty ns).1) a b = _
    rw [ih, count_node_coords_snapLookup]
    rw [List.flatMap_cons, lastWrite_append, Option.or_assoc]

theorem run_batches_dget (old : CacheMap) (e : List Char) :
    ∀ (q : List Batch) (caches : List (List Char × CacheMap)),
    (dget e ((run_batches old caches q).1)).getD [] =
      (q.filter (fun bb => decide (bb.expansion = e))).foldl
        (fun m bb => (processNodes old m bb.node_type bb.nodes).1)
        ((dget e caches).getD []) := by
  intro q
  induction q with
  | nil => intro caches; rfl
  | cons b rest ih =>
    intro caches
    show (dget e ((run_batches old
      (dset b.expansion (processNodes old ((dget b.expansion caches).getD [])
        b.node_type b.nodes).1 caches) rest).1)).getD [] = _
    rw [ih]
    by_cases hbe : b.expansion = e
    · rw [List.filter_cons, if_pos (by simp [hbe])]
      rw [List.foldl_cons]
      subst hbe
      rw [dget_dset_same]
      rfl
    · rw [List.filter_cons, if_neg (by simp [hbe])]
      rw [dget_dset_other _ _ _ _ (fun hh => hbe hh.symm)]

theorem initCaches_dget (sel : List (List Char)) (e : List Char) :
    (dget e (initCaches sel)).getD [] = [] := by
  suffices H : ∀ (sel : List (List Char)) (acc : List (List Char × CacheMap)),
      (∀ x, (dget x acc).getD [] = []) →
      ∀ x, (dget x (sel.foldl (fun a ee => dset ee [] a) acc)).getD [] = [] by
    exact H sel [] (fun x => rfl) e
  intro sel
  induction sel with
  | nil => intro acc hacc x; exact hacc x
  | cons s rest ih =>
    intro acc hacc x
    rw [List.foldl_cons]
    apply ih
    intro x2
    by_cases hx : x2 = s
    · subst hx
      rw [dget_dset_same]
      rfl
    · rw [dget_dset_other _ _ _ _ hx]
      exact hacc x2

/-- The per-partition snapshot a run computes is exactly the last-write
view of that partition's own observation sequence in that run; the prior
caches `old` play no part in it. -/
theorem snapshot_run_lookup (old : CacheMap) (sel : List (List Char)) (q : List Batch)
    (e a b : List Char) :
    snapLookup ((dget e ((run_batches old (initCaches sel) q).1)).getD []) a b =
      lastWrite (queueObs (q.filter (fun bb => decide (bb.expansion = e)))) a b := by
  rw [run_batches_dget, initCaches_dget]
  generalize q.filter (fun bb => decide (bb.expansion = e)) = bs
  suffices H : ∀ (bs : List Batch) (m : CacheMap),
      snapLookup (bs.foldl (fun mm bb => (processNodes old mm bb.node_type bb.nodes).1) m) a b =
        (lastWrite (queueObs bs) a b).or (snapLookup m a b) by
    rw [H bs []]
    have hnone : snapLookup ([] : CacheMap) a b = none := rfl
    rw [hnone, Option.or_none]
  intro bs
  induction bs with
  | nil => intro m; simp [queueObs, lastWrite_nil]
  | cons bb rest ih =>
    intro m
    rw [List.foldl_cons, ih, processNodes_snapLookup]
    show _ = (lastWrite (queueObs (bb :: rest)) a b).or (snapLookup m a b)
    unfold queueObs
    rw [List.flatMap_cons, lastWrite_append, Option.or_assoc]
    rfl

theorem processCoords_counts (old : CacheMap) (ck gid : List Char) (m : CacheMap)
    (cs : List Coordinate) :
    (processCoords old ck gid m cs).2.1 =
      (cs.map (fun c => (ck, intStr (coordVal c), gid))).countP (missObs old) := by
  induction cs generalizing m with
  | nil => rfl
  | cons c cs ih =>
    show (if missOld old ck (intStr (coordVal c)) then 1 else 0) +
        (processCoords old ck gid (wset m ck (intStr (coordVal c)) gid) cs).2.1 = _
    rw [ih, List.map_cons, List.countP_cons]
    have : missObs old (ck, intStr (coordVal c), gid) = missOld old ck (intStr (coordVal c)) := rfl
    rw [this]
    omega

theorem processZones_counts (old : CacheMap) (ty gid : List Char) (m : CacheMap)
    (zs : List (Zone × List Coordinate)) :
    (processZones old ty gid m zs).2.1 = (zs.flatMap (zoneWrites ty gid)).length ∧
    (processZones old ty gid m zs).2.2.1 =
      (zs.flatMap (zoneWrites ty gid)).countP (missObs old) := by
  induction zs generalizing m with
  | nil => exact ⟨rfl, rfl⟩
  | cons zc zs ih =>
    obtain ⟨z, cs⟩ := zc
    have hrec := ih ((processCoords old (cacheKey z ty) gid
      (ensureKey m (cacheKey z ty)) cs).1)
    constructor
    · show cs.length + (processZones old ty gid _ zs).2.1 = _
      rw [hrec.1, List.flatMap_cons, List.length_append]
      simp [zoneWrites]
    · show (processCoords old (cacheKey z ty) gid _ cs).2.1 +
        (processZones old ty gid _ zs).2.2.1 = _
      rw [hrec.2, processCoords_counts, List.flatMap_cons, List.countP_append]
      rfl

theorem processNodes_counts (old : CacheMap) (m : CacheMap) (ty : List Char)
    (nodes : List WowheadObject) :
    (processNodes old m ty nodes).2.1 = (nodes.flatMap (nodeObs · ty)).length ∧
    (processNodes old m ty nodes).2.2.1 =
      (nodes.flatMap (nodeObs · ty)).countP (missObs old) := by
  induction nodes generalizing m with
  | nil => exact ⟨rfl, rfl⟩
  | cons n ns ih =>
    have hz := processZones_counts old ty n.gathermate_id m n.coordinates
    have hrec := ih (count_node_coords old m n ty).1
    constructor
    · show (count_node_coords old m n ty).2.1 + (processNodes old _ ty ns).2.1 = _
      rw [hrec.1, List.flatMap_cons, List.length_append]
      congr 1
      exact hz.1
    · show (count_node_coords old m n ty).2.2.1 + (processNodes old _ ty ns).2.2.1 = _
      rw [hrec.2, List.flatMap_cons, List.countP_append]
      congr 1
      exact hz.2

theorem run_batches_counts (old : CacheMap) (caches : List (List Char × CacheMap))
    (q : List Batch) :
    (run_batches old caches q).2.1 = (queueObs q).length ∧
    (run_batches old caches q).2.2 = (queueObs q).countP (missObs old) := by
  induction q generalizing caches with
  | nil => exact ⟨rfl, rfl⟩
  | cons b rest ih =>
    have hn := processNodes_counts old ((dget b.expansion caches).getD []) b.node_type b.nodes
    have hrec := ih (dset b.expansion (processNodes old ((dget b.expansion caches).getD [])
      b.node_type b.nodes).1 caches)
    constructor
    · show (processNodes old _ b.node_type b.nodes).2.1 + (run_batches old _ rest).2.1 = _
      rw [hrec.1, hn.1]
      unfold queueObs
      rw [List.flatMap_cons, List.length_append]
      rfl
    · show (processNodes old _ b.node_type b.nodes).2.2.1 + (run_batches old _ rest).2.2 = _
      rw [hrec.2, hn.2]
      unfold queueObs
      rw [List.flatMap_cons, List.countP_append]
      rfl

/-! ### Helper lemmas: loading prior snapshots -/

theorem mem_dkeys_dset {K V : Type} [DecidableEq K] {k1 k : K} {v : V} :
    ∀ {d : List (K × V)}, k1 ∈ dkeys (dset k v d) → k1 = k ∨ k1 ∈ dkeys d := by
  intro d
  induction d with
  | nil =>
    intro h
    simp only [dset, dkeys, List.map_cons, List.map_nil, List.mem_singleton] at h
    exact Or.inl h
  | cons p rest ih =>
    obtain ⟨k2, v2⟩ := p
    intro h
    by_cases h2 : k2 = k
    · subst h2
      have hd : dset k2 v ((k2, v2) :: rest) = (k2, v) :: rest := by
        show (if k2 = k2 then (k2, v) :: rest else (k2, v2) :: dset k2 v rest) = (k2, v) :: rest
        rw [if_pos rfl]
      rw [hd] at h
      simp only [dkeys, List.map_cons, List.mem_cons] at h
      rcases h with h | h
      · exact Or.inl h
      · right
        simp only [dkeys, List.map_cons, List.mem_cons]
        exact Or.inr h
    · have hd : dset k v ((k2, v2) :: rest) = (k2, v2) :: dset k v rest := by
        show (if k2 = k then (k, v) :: rest else (k2, v2) :: dset k v rest) =
          (k2, v2) :: dset k v rest
        rw [if_neg h2]
      rw [hd] at h
      simp only [dkeys, List.map_cons, List.mem_cons] at h
      rcases h with h | h
      · right
        simp only [dkeys, List.map_cons, List.mem_cons]
        exact Or.inl h
      · rcases ih h with h | h
        · exact Or.inl h
        · right
          simp only [dkeys, List.map_cons, List.mem_cons]
          exact Or.inr h

theorem dset_keys_nodup {K V : Type} [DecidableEq K] (k : K) (v : V) (d : List (K × V))
    (h : (d.map Prod.fst).Nodup) : ((dset k v d).map Prod.fst).Nodup := by
  induction d with
  | nil => simp [dset]
  | cons p rest ih =>
    obtain ⟨k1, v1⟩ := p
    simp only [List.map_cons, List.nodup_cons] at h
    by_cases h1 : k1 = k
    · subst h1
      have hd : dset k1 v ((k1, v1) :: rest) = (k1, v) :: rest := by
        show (if k1 = k1 then (k1, v) :: rest else (k1, v1) :: dset k1 v rest) = _
        rw [if_pos rfl]
      rw [hd]
      simp only [List.map_cons, List.nodup_cons]
      exact h
    · have hd : dset k v ((k1, v1) :: rest) = (k1, v1) :: dset k v rest := by
        show (if k1 = k then (k, v) :: rest else (k1, v1) :: dset k v rest) = _
        rw [if_neg h1]
      rw [hd]
      simp only [List.map_cons, List.nodup_cons]
      constructor
      · intro hmem
        rcases mem_dkeys_dset hmem with hmem2 | hmem2
        · exact h1 hmem2
        · exact h.1 hmem2
      · exact ih h.2

/-- Looking up a key after `dict.update(s)`: the updating dict wins when it
holds the key (for `s` with distinct keys). -/
theorem fold_dset_dget {K V : Type} [DecidableEq K] :
    ∀ (s acc : List (K × V)), (s.map Prod.fst).Nodup → ∀ (key : K),
    dget key (s.foldl (fun a kv => dset kv.1 kv.2 a) acc) = (dget key s).or (dget key acc) := by
  intro s
  induction s with
  | nil => intro acc _ key; rfl
  | cons kv rest ih =>
    obtain ⟨k1, v1⟩ := kv
    intro acc hs key
    simp only [List.map_cons, List.nodup_cons] at hs
    rw [List.foldl_cons, ih _ hs.2]
    have hdg : dget key ((k1, v1) :: rest) = if k1 = key then some v1 else dget key rest := rfl
    rw [hdg]
    by_cases hk : k1 = key
    · subst hk
      have hr : dget k1 rest = none :=
        dget_eq_none_of_not_mem _ _ (by simpa [dkeys] using hs.1)
      rw [hr, dget_dset_same, if_pos rfl]
      rfl
    · rw [dget_dset_other _ _ _ _ (fun hh => hk hh.symm), if_neg hk]

theorem load_old_cache_dget (snaps : List CacheMap)
    (hs : ∀ s ∈ snaps, (s.map Prod.fst).Nodup) (key : List Char) :
    dget key (load_old_cache snaps) = loadLookup snaps key := by
  suffices H : ∀ (snaps : List CacheMap), (∀ s ∈ snaps, (s.map Prod.fst).Nodup) →
      ∀ (acc : CacheMap),
      dget key (snaps.foldl (fun a s => s.foldl (fun a2 kv => dset kv.1 kv.2 a2) a) acc) =
        (loadLookup snaps key).or (dget key acc) by
    have hnil : dget key ([] : CacheMap) = none := rfl
    rw [show load_old_cache snaps =
      snaps.foldl (fun a s => s.foldl (fun a2 kv => dset kv.1 kv.2 a2) a) [] from rfl]
    rw [H snaps hs [], hnil, Option.or_none]
  intro snaps2
  induction snaps2 with
  | nil => intro _ acc; rfl
  | cons s rest ih =>
    intro hs2 acc
    rw [List.foldl_cons, ih (fun t ht => hs2 t (List.mem_cons_of_mem _ ht))]
    rw [fold_dset_dget s acc (hs2 s (by simp)) key]
    unfold loadLookup
    rw [List.reverse_cons, List.find?_append]
    cases hfr : rest.reverse.find? (fun t2 => (dget key t2).isSome) with
    | some t =>
      have hsome := List.find?_some hfr
      show (dget key t).or ((dget key s).or (dget key acc)) = (dget key t).or (dget key acc)
      cases hdt : dget key t with
      | none => simp [hdt] at hsome
      | some i => rfl
    | none =>
      show (dget key s).or (dget key acc) =
        ((List.find? (fun t2 => (dget key t2).isSome) [s]).bind (dget key)).or (dget key acc)
      cases hds : dget key s with
      | some i =>
        have hf : List.find? (fun t2 => (dget key t2).isSome) [s] = some s := by
          simp [List.find?, hds]
        rw [hf, show ((some s).bind (dget key)) = dget key s from rfl, hds]
      | none =>
        have hf : List.find? (fun t2 => (dget key t2).isSome) [s] = none := by
          simp [List.find?, hds]
        rw [hf]
        rfl

/-! ### Helper lemmas: snapshots have distinct top-level keys -/

theorem ensureKey_keys_nodup (m : CacheMap) (ck : List Char)
    (h : (m.map Prod.fst).Nodup) : ((ensureKey m ck).map Prod.fst).Nodup := by
  unfold ensureKey
  cases dget ck m
  · exact dset_keys_nodup _ _ _ h
  · exact h

theorem processCoords_keys_nodup (old : CacheMap) (ck gid : List Char) (m : CacheMap)
    (cs : List Coordinate) (h : (m.map Prod.fst).Nodup) :
    (((processCoords old ck gid m cs).1).map Prod.fst).Nodup := by
  induction cs generalizing m with
  | nil => exact h
  | cons c cs ih => exact ih _ (dset_keys_nodup _ _ _ h)

theorem processZones_keys_nodup (old : CacheMap) (ty gid : List Char) (m : CacheMap)
    (zs : List (Zone × List Coordinate)) (h : (m.map Prod.fst).Nodup) :
    (((processZones old ty gid m zs).1).map Prod.fst).Nodup := by
  induction zs generalizing m with
  | nil => exact h
  | cons zc zs ih =>
    obtain ⟨z, cs⟩ := zc
    exact ih _ (processCoords_keys_nodup _ _ _ _ _ (ensureKey_keys_nodup _ _ h))

theorem processNodes_keys_nodup (old : CacheMap) (m : CacheMap) (ty : List Char)
    (nodes : List WowheadObject) (h : (m.map Prod.fst).Nodup) :
    (((processNodes old m ty nodes).1).map Prod.fst).Nodup := by
  induction nodes generalizing m with
  | nil => exact h
  | cons n ns ih => exact ih _ (processZones_keys_nodup _ _ _ _ _ h)

theorem snapshot_keys_nodup (old : CacheMap) (sel : List (List Char)) (q : List Batch)
    (e : List Char) :
    (((dget e ((run_batches old (initCaches sel) q).1)).getD []).map Prod.fst).Nodup := by
  rw [run_batches_dget, initCaches_dget]
  generalize q.filter (fun bb => decide (bb.expansion = e)) = bs
  suffices H : ∀ (bs : List Batch) (m : CacheMap), (m.map Prod.fst).Nodup →
      ((bs.foldl (fun mm bb => (processNodes old mm bb.node_type bb.nodes).1) m).map
        Prod.fst).Nodup by
    exact H bs [] (by simp)
  intro bs
  induction bs with
  | nil => intro m hm; exact hm
  | cons bb rest ih =>
    intro m hm
    exact ih _ (processNodes_keys_nodup _ _ _ _ hm)

/-! ## Claim theorems -/

/-- C9: for x, y in [0,100] the encoder is the spec formula
`floor(x/100*10000+0.5)*1000000 + floor(y/100*10000+0.5)*100`, it is
deterministic (a function of x and y alone) and non-negative;
`encode(0,0) = 0` and `encode(100,100) = 10000*1000000 + 10000*100`. -/
theorem C9_encode_contract (x y : ℚ) (hx0 : 0 ≤ x) (_hx1 : x ≤ 100)
    (hy0 : 0 ≤ y) (_hy1 : y ≤ 100) :
    coordVal ⟨x, y, 0⟩ =
      ⌊x / 100 * 10000 + 1 / 2⌋ * 1000000 + ⌊y / 100 * 10000 + 1 / 2⌋ * 100 ∧
    0 ≤ coordVal ⟨x, y, 0⟩ ∧
    coordVal ⟨0, 0, 0⟩ = 0 ∧
    coordVal ⟨100, 100, 0⟩ = 10000 * 1000000 + 10000 * 100 := by
  have hform : ∀ a b : ℚ, coordVal ⟨a, b, 0⟩ = packCoord a b := by
    intro a b
    simp [coordVal, Coordinate.as_gatherer_coord]
  refine ⟨hform x y, ?_, ?_, ?_⟩
  · rw [hform x y]
    unfold packCoord
    have h1 : (0 : ℤ) ≤ ⌊x / 100 * 10000 + 1 / 2⌋ := by
      apply Int.le_floor.mpr
      push_cast
      nlinarith
    have h2 : (0 : ℤ) ≤ ⌊y / 100 * 10000 + 1 / 2⌋ := by
      apply Int.le_floor.mpr
      push_cast
      nlinarith
    positivity
  · rw [hform 0 0]
    norm_num [packCoord]
  · rw [hform 100 100]
    norm_num [packCoord]

/-- C9 witness at `(x, y) = (10, 20)`. -/
theorem C9_encode_contract_check :
    ((0 : ℚ) ≤ 10 ∧ (10 : ℚ) ≤ 100 ∧ (0 : ℚ) ≤ 20 ∧ (20 : ℚ) ≤ 100) ∧
    (coordVal ⟨10, 20, 0⟩ =
        ⌊(10 : ℚ) / 100 * 10000 + 1 / 2⌋ * 1000000 + ⌊(20 : ℚ) / 100 * 10000 + 1 / 2⌋ * 100 ∧
      0 ≤ coordVal ⟨10, 20, 0⟩ ∧
      coordVal ⟨0, 0, 0⟩ = 0 ∧
      coordVal ⟨100, 100, 0⟩ = 10000 * 1000000 + 10000 * 100) :=
  ⟨⟨by norm_num, by norm_num, by norm_num, by norm_num⟩,
    C9_encode_contract 10 20 (by norm_num) (by norm_num) (by norm_num) (by norm_num)⟩

/-- C1 counterexample: the observations `(x=10, y=20)` and
`(x=10.004, y=20)` in the same zone encode to the same packed value
1000200000, yet the aggregator bumps neither of them — the collision test
in `Aggregate.add` compares `Coordinate` records (Python dataclass `==` on
`(x, y, coord)`), not packed values — so the two produced entries carry
EQUAL packed values instead of values differing by exactly 1. -/
theorem C1_counterexample :
    packCoord 10 20 = packCoord (2501 / 250) 20 ∧
    aggregateObs
        [(⟨"ZoneA".toList, "2022".toList⟩, ⟨⟨10, 20, 0⟩, "401".toList⟩),
         (⟨"ZoneA".toList, "2022".toList⟩, ⟨⟨2501 / 250, 20, 0⟩, "402".toList⟩)] =
      [⟨⟨"ZoneA".toList, "2022".toList⟩,
        [⟨⟨10, 20, 0⟩, "401".toList⟩, ⟨⟨2501 / 250, 20, 0⟩, "402".toList⟩]⟩] ∧
    coordVal ⟨(10 : ℚ), 20, 0⟩ = coordVal ⟨(2501 / 250 : ℚ), 20, 0⟩ := by
  refine ⟨by norm_num [packCoord], ?_, ?_⟩
  · apply aggregateObs_two_diff
    simp only [ne_eq, Coordinate.mk.injEq, not_and]
    intro hx
    norm_num at hx
  · norm_num [coordVal, Coordinate.as_gatherer_coord, packCoord]

/-- C1 (amended): when the two same-zone observations carry IDENTICAL
coordinate records (equal x, y and memo field — in particular two scrapes
of the same raw position in the same memoisation state) with non-negative
packed value, the aggregator emits two entries whose packed values differ
by exactly 1, the second one bumped, and both source ids are preserved.
Observations that merely encode to the same packed value from different
raw coordinates are both kept but share a packed value (see the
counterexample). -/
theorem C1_collision_bump (z : Zone) (c : Coordinate) (id1 id2 : List Char)
    (h : 0 ≤ coordVal c) :
    aggregateObs [(z, ⟨c, id1⟩), (z, ⟨c, id2⟩)] =
      [⟨z, [⟨c, id1⟩, ⟨bumpCoord c, id2⟩]⟩] ∧
    coordVal (bumpCoord c) = coordVal c + 1 ∧
    (aggregateObs [(z, ⟨c, id1⟩), (z, ⟨c, id2⟩)]).flatMap
      (fun gz => gz.entries.map (·.entry_id)) = [id1, id2] := by
  refine ⟨aggregateObs_two_same z c id1 id2 h, coordVal_bumpCoord c h, ?_⟩
  rw [aggregateObs_two_same z c id1 id2 h]
  simp

/-- C1 witness: a concrete collision with both entries present and packed
values 7 and 8. -/
theorem C1_collision_bump_check :
    (0 : ℤ) ≤ coordVal ⟨10, 20, 7⟩ ∧
    (aggregateObs
        [(⟨"A".toList, "2".toList⟩, ⟨⟨10, 20, 7⟩, "401".toList⟩),
         (⟨"A".toList, "2".toList⟩, ⟨⟨10, 20, 7⟩, "402".toList⟩)] =
      [⟨⟨"A".toList, "2".toList⟩,
        [⟨⟨10, 20, 7⟩, "401".toList⟩, ⟨bumpCoord ⟨10, 20, 7⟩, "402".toList⟩]⟩] ∧
    coordVal (bumpCoord ⟨10, 20, 7⟩) = coordVal ⟨10, 20, 7⟩ + 1 ∧
    (aggregateObs
        [(⟨"A".toList, "2".toList⟩, ⟨⟨10, 20, 7⟩, "401".toList⟩),
         (⟨"A".toList, "2".toList⟩, ⟨⟨10, 20, 7⟩, "402".toList⟩)]).flatMap
      (fun gz => gz.entries.map (·.entry_id)) = ["401".toList, "402".toList]) :=
  ⟨by decide,
    C1_collision_bump ⟨"A".toList, "2".toList⟩ ⟨10, 20, 7⟩ ("401".toList) ("402".toList)
      (by decide)⟩

/-- C2 counterexample: after aggregating `(x=30, y=40)` and
`(x=30, y=40.004)` in one zone — distinct raw coordinates, same packed
value — the zone's packed coordinate list is `[3000400000, 3000400000]`,
which is not distinct. -/
theorem C2_counterexample :
    (aggregateObs
        [(⟨"ZoneB".toList, "84".toList⟩, ⟨⟨30, 40, 0⟩, "11".toList⟩),
         (⟨"ZoneB".toList, "84".toList⟩, ⟨⟨30, 10001 / 250, 0⟩, "12".toList⟩)]).flatMap
      (fun gz => gz.entries.map (fun e => coordVal e.coordinate)) =
      [3000400000, 3000400000] ∧
    ¬ ((aggregateObs
        [(⟨"ZoneB".toList, "84".toList⟩, ⟨⟨30, 40, 0⟩, "11".toList⟩),
         (⟨"ZoneB".toList, "84".toList⟩, ⟨⟨30, 10001 / 250, 0⟩, "12".toList⟩)]).flatMap
      (fun gz => gz.entries.map (fun e => coordVal e.coordinate))).Nodup := by
  have hagg := aggregateObs_two_diff (⟨"ZoneB".toList, "84".toList⟩ : Zone)
    ⟨30, 40, 0⟩ ⟨30, 10001 / 250, 0⟩ ("11".toList) ("12".toList)
    (by
      simp only [ne_eq, Coordinate.mk.injEq, not_and]
      intro _ hy
      norm_num at hy)
  have hv1 : coordVal ⟨(30 : ℚ), 40, 0⟩ = 3000400000 := by
    norm_num [coordVal, Coordinate.as_gatherer_coord, packCoord]
  have hv2 : coordVal ⟨(30 : ℚ), 10001 / 250, 0⟩ = 3000400000 := by
    norm_num [coordVal, Coordinate.as_gatherer_coord, packCoord]
  rw [hagg]
  simp [hv1, hv2]

/-- C2 (amended): within each zone of an aggregation run (over
observations with non-negative packed values) the coordinate RECORDS are
pairwise distinct — packed values may still repeat when distinct raw
coordinates encode equal — and serialization (`GathererZone.__repr__`,
which emits `sorted(self.entries)`) lists each zone's entries in
non-decreasing packed coordinate order. -/
theorem C2_zone_invariant :
    (∀ obs : List (Zone × GathererEntry), (∀ p ∈ obs, 0 ≤ coordVal p.2.coordinate) →
      ∀ gz ∈ aggregateObs obs, (gz.entries.map (·.coordinate)).Nodup) ∧
    (∀ gz : GathererZone,
      List.Sorted (· ≤ ·) (gz.sortedEntries.map (fun e => coordVal e.coordinate))) := by
  constructor
  · exact aggregateObs_nodup
  · intro gz
    have hs : List.Sorted entryLE (List.insertionSort entryLE gz.entries) :=
      List.sorted_insertionSort entryLE gz.entries
    exact List.Pairwise.map _ (fun a b hab => hab) hs

theorem coordVal_self_pack (x y : ℚ) : coordVal ⟨x, y, packCoord x y⟩ = packCoord x y := by
  unfold coordVal Coordinate.as_gatherer_coord
  by_cases hp : packCoord x y = 0
  · simp only [hp]
    rfl
  · simp only
    rw [if_neg hp]

theorem lastWrite_two_hit (ck ik v1 v2 : List Char) :
    lastWrite [(ck, ik, v1), (ck, ik, v2)] ck ik = some v2 := by
  rw [lastWrite_cons, lastWrite_cons, lastWrite_nil,
    if_pos ⟨rfl, rfl⟩, if_pos ⟨rfl, rfl⟩]
  rfl

theorem lastWrite_two_miss (ck ik v1 v2 b : List Char) (hb : b ≠ ik) :
    lastWrite [(ck, ik, v1), (ck, ik, v2)] ck b = none := by
  rw [lastWrite_cons, lastWrite_cons, lastWrite_nil,
    if_neg (fun hh => hb hh.2.symm), if_neg (fun hh => hb hh.2.symm)]
  rfl

/-! ### Helper lemmas: merge engine -/

theorem dget_append {K V : Type} [DecidableEq K] (k : K) (l1 l2 : List (K × V)) :
    dget k (l1 ++ l2) = (dget k l1).or (dget k l2) := by
  induction l1 with
  | nil => rfl
  | cons p rest ih =>
    obtain ⟨k1, v1⟩ := p
    by_cases hk : k1 = k
    · subst hk
      show (if k1 = k1 then some v1 else dget k1 (rest ++ l2)) = _
      rw [if_pos rfl]
      show _ = (if k1 = k1 then some v1 else dget k1 rest).or (dget k1 l2)
      rw [if_pos rfl]
      rfl
    · show (if k1 = k then some v1 else dget k (rest ++ l2)) = _
      rw [if_neg hk, ih]
      show _ = (if k1 = k then some v1 else dget k rest).or (dget k l2)
      rw [if_neg hk]

theorem joinNl_head (a : List Char) (ls : List (List Char)) :
    ∃ rest, joinNl (a :: ls) = a ++ rest := by
  cases ls with
  | nil => exact ⟨[], by simp [joinNl]⟩
  | cons b ls2 => exact ⟨Char.ofNat 10 :: joinNl (b :: ls2), rfl⟩

theorem merge_db_cons (existing : MixedTable) (z : ℕ) (cvs : List (ℕ × ℕ))
    (rest : LuaTable) :
    merge_db existing ((z, cvs) :: rest) =
      (match dget z existing with
       | some (LuaField.num _) => none
       | some (LuaField.tbl d) =>
           some (dset z
             (LuaField.tbl (cvs.foldl (fun dd (p : ℕ × ℕ) => dset p.1 p.2 dd) d)) existing)
       | none =>
           some (existing ++
             [(z, LuaField.tbl (cvs.foldl (fun dd (p : ℕ × ℕ) => dset p.1 p.2 dd) []))])).bind
        (fun m => merge_db m rest) := rfl

theorem mixedLookup_some_tbl (z c : ℕ) (T : MixedTable) (d : List (ℕ × ℕ))
    (h : dget z T = some (LuaField.tbl d)) : mixedLookup z c T = dget c d := by
  unfold mixedLookup
  rw [h]

theorem mixedLookup_none_of_dget (z c : ℕ) (T : MixedTable)
    (h : dget z T = none) : mixedLookup z c T = none := by
  unfold mixedLookup
  rw [h]

/-- C3 counterexample: run 1 over partition E1 observes the coordinate
`10,20` (memo 7) and its saved snapshot holds `("2022_herbs", "7") → "401"`;
run 2 over the SAME partition observes a different coordinate, and the
snapshot it persists no longer contains that pair — the cache is replaced
wholesale by the current run, it does not grow. -/
theorem C3_counterexample :
    snapLookup ((dget ("E1".toList) ((run_batches [] (initCaches [("E1".toList)])
        [⟨"E1".toList, "herbs".toList,
          [⟨"A".toList, [], [(⟨"ZoneA".toList, "2022".toList⟩, [⟨10, 20, 7⟩])],
            "401".toList⟩]⟩]).1)).getD [])
      ("2022_herbs".toList) ("7".toList) = some ("401".toList) ∧
    snapLookup ((dget ("E1".toList) ((run_batches [] (initCaches [("E1".toList)])
        [⟨"E1".toList, "herbs".toList,
          [⟨"B".toList, [], [(⟨"ZoneA".toList, "2022".toList⟩, [⟨30, 40, 9⟩])],
            "401".toList⟩]⟩]).1)).getD [])
      ("2022_herbs".toList) ("7".toList) = none := by
  constructor
  · decide
  · decide

/-- C3 (amended): the snapshot persisted for a partition is computed
wholesale from the CURRENT run's observations alone: its lookup at any
(composite key, coordinate key) equals the last matching write of that
partition's own observation sequence in this run — whatever the prior
caches `old` contained.  A pair from a previous snapshot survives only if
re-observed.  (A partition whose run cache is empty is skipped on save, so
its previous file survives; file I/O is outside this model.) -/
theorem C3_snapshot_wholesale (old : CacheMap) (sel : List (List Char)) (q : List Batch)
    (e a b : List Char) :
    snapLookup ((dget e ((run_batches old (initCaches sel) q).1)).getD []) a b =
      lastWrite (queueObs (q.filter (fun bb => decide (bb.expansion = e)))) a b :=
  snapshot_run_lookup old sel q e a b

/-- C8 counterexample: two partitions E1, E2 whose runs both write under
the composite key `2022_herbs` (a zone shared across expansions).  The
prior view is built with `dict.update`, which replaces the whole inner
map per composite key, so E2's snapshot shadows E1's.  Re-running the
IDENTICAL input against the freshly saved snapshots classifies 1 record
as new instead of 0. -/
theorem C8_counterexample :
    (run_batches
      (load_old_cache ([("E1".toList), ("E2".toList)].map (fun e =>
        (dget e ((run_batches [] (initCaches [("E1".toList), ("E2".toList)])
          [⟨"E1".toList, "herbs".toList,
            [⟨"A".toList, [], [(⟨"ZoneA".toList, "2022".toList⟩, [⟨10, 20, 7⟩])],
              "401".toList⟩]⟩,
           ⟨"E2".toList, "herbs".toList,
            [⟨"B".toList, [], [(⟨"ZoneA".toList, "2022".toList⟩, [⟨30, 40, 9⟩])],
              "402".toList⟩]⟩]).1)).getD [])))
      (initCaches [("E1".toList), ("E2".toList)])
      [⟨"E1".toList, "herbs".toList,
        [⟨"A".toList, [], [(⟨"ZoneA".toList, "2022".toList⟩, [⟨10, 20, 7⟩])],
          "401".toList⟩]⟩,
       ⟨"E2".toList, "herbs".toList,
        [⟨"B".toList, [], [(⟨"ZoneA".toList, "2022".toList⟩, [⟨30, 40, 9⟩])],
          "402".toList⟩]⟩]).2.2 = 1 := by
  decide

/-- C8 (amended): (a) on a run whose prior view is empty, every aggregated
record is classified new (`new_count = total`); (b) novelty is decided by
presence of the coordinate key in the prior view, never by source id
equality; (c) re-running identical input against the freshly saved
snapshots yields zero new records PROVIDED distinct partitions' snapshots
have disjoint composite keys — the prior view is assembled by
per-composite-key replacement (`dict.update`), so a shared composite key
lets one partition's snapshot shadow another's (see the counterexample). -/
theorem C8_cache_novelty :
    (∀ (sel : List (List Char)) (q : List Batch),
      (run_batches [] (initCaches sel) q).2.2 = (run_batches [] (initCaches sel) q).2.1) ∧
    (∀ (old : CacheMap) (ck ik : List Char),
      missOld old ck ik = true ↔ snapLookup old ck ik = none) ∧
    (∀ (sel : List (List Char)) (q : List Batch) (old1 : CacheMap),
      (∀ bb ∈ q, bb.expansion ∈ sel) →
      (∀ e1 e2, e1 ∈ sel → e2 ∈ sel → e1 ≠ e2 → ∀ K,
        (dget K ((dget e1 ((run_batches old1 (initCaches sel) q).1)).getD [])).isSome →
        dget K ((dget e2 ((run_batches old1 (initCaches sel) q).1)).getD []) = none) →
      (run_batches
        (load_old_cache (sel.map (fun e =>
          (dget e ((run_batches old1 (initCaches sel) q).1)).getD [])))
        (initCaches sel) q).2.2 = 0) := by
  refine ⟨?_, ?_, ?_⟩
  · intro sel q
    rw [(run_batches_counts [] (initCaches sel) q).1,
      (run_batches_counts [] (initCaches sel) q).2]
    apply List.countP_eq_length.mpr
    intro o _
    rfl
  · intro old ck ik
    unfold missOld snapLookup
    cases hdc : dget ck old with
    | none => simp [dget]
    | some i => simp
  · intro sel q old1 hexp hdisj
    rw [(run_batches_counts _ (initCaches sel) q).2]
    apply List.countP_eq_zero.mpr
    intro o ho
    obtain ⟨bb, hbb, hobb⟩ := List.mem_flatMap.mp ho
    set run1 := run_batches old1 (initCaches sel) q with hrun1
    set saved := fun e => (dget e (run1.1)).getD [] with hsaved
    -- the partition's own snapshot holds the key
    have hself : (snapLookup (saved bb.expansion) o.1 o.2.1).isSome := by
      rw [hsaved]
      simp only
      rw [hrun1, snapshot_run_lookup]
      have homem : o ∈ queueObs (q.filter (fun b2 => decide (b2.expansion = bb.expansion))) := by
        unfold queueObs
        apply List.mem_flatMap.mpr
        exact ⟨bb, List.mem_filter.mpr ⟨hbb, by simp⟩, hobb⟩
      unfold lastWrite
      cases hf2 : (queueObs (q.filter (fun b2 =>
          decide (b2.expansion = bb.expansion)))).reverse.find?
          (fun w => decide (w.1 = o.1 ∧ w.2.1 = o.2.1)) with
      | none =>
        exfalso
        have hno := List.find?_eq_none.mp hf2 o (List.mem_reverse.mpr homem)
        simp at hno
      | some w => rfl
    obtain ⟨i, hd⟩ : ∃ i, dget o.1 (saved bb.expansion) = some i := by
      cases hdx : dget o.1 (saved bb.expansion) with
      | none =>
        exfalso
        unfold snapLookup at hself
        rw [hdx] at hself
        cases hself
      | some i => exact ⟨i, rfl⟩
    have hKsome : (dget o.1 (saved bb.expansion)).isSome := by rw [hd]; rfl
    -- the loaded prior view resolves the key to that same snapshot
    have hnodup : ∀ s2 ∈ sel.map saved, (s2.map Prod.fst).Nodup := by
      intro s2 hs2
      obtain ⟨e2, _, rfl⟩ := List.mem_map.mp hs2
      rw [hsaved]
      simp only
      rw [hrun1]
      exact snapshot_keys_nodup old1 sel q e2
    have hload := load_old_cache_dget (sel.map saved) hnodup o.1
    have hfind : dget o.1 (load_old_cache (sel.map saved)) = dget o.1 (saved bb.expansion) := by
      rw [hload]
      unfold loadLookup
      cases hfr : (sel.map saved).reverse.find? (fun s2 => (dget o.1 s2).isSome) with
      | none =>
        exfalso
        have hall : ∀ s2 ∈ (sel.map saved).reverse, ¬((dget o.1 s2).isSome = true) :=
          List.find?_eq_none.mp hfr
        exact hall (saved bb.expansion)
          (List.mem_reverse.mpr (List.mem_map_of_mem saved (hexp bb hbb))) hKsome
      | some s2 =>
        have hs2mem : s2 ∈ (sel.map saved).reverse := List.mem_of_find?_eq_some hfr
        have hs2some := List.find?_some hfr
        obtain ⟨e2, he2, rfl⟩ := List.mem_map.mp (List.mem_reverse.mp hs2mem)
        by_cases hee : e2 = bb.expansion
        · subst hee
          rfl
        · exfalso
          have hz := hdisj e2 bb.expansion he2 (hexp bb hbb) hee o.1 hs2some
          have hd2 : dget o.1 ((dget bb.expansion run1.1).getD []) = some i := hd
          rw [hz] at hd2
          cases hd2
    -- hence the record is not new
    have hself2 : (dget o.2.1 i).isSome := by
      unfold snapLookup at hself
      rw [hd] at hself
      exact hself
    obtain ⟨v, hdv⟩ := Option.isSome_iff_exists.mp hself2
    have hmiss : missOld (load_old_cache (sel.map saved)) o.1 o.2.1 = false := by
      unfold missOld
      rw [hfind, hd]
      show (dget o.2.1 ((some i).getD [])).isNone = false
      rw [show (some i).getD ([] : InnerCache) = i from rfl, hdv]
      rfl
    intro hcon
    rw [show missObs (load_old_cache (sel.map saved)) o =
      missOld (load_old_cache (sel.map saved)) o.1 o.2.1 from rfl] at hcon
    rw [hmiss] at hcon
    cases hcon

/-- C8 witness: a single-partition run (disjointness is vacuous): the
identical rerun against its freshly saved snapshot reports zero new. -/
theorem C8_cache_novelty_check :
    ((∀ bb ∈ [(⟨"E1".toList, "herbs".toList,
        [⟨"A".toList, [], [(⟨"ZoneA".toList, "2022".toList⟩, [⟨10, 20, 7⟩])],
          "401".toList⟩]⟩ : Batch)], bb.expansion ∈ [("E1".toList)]) ∧
      (∀ e1 e2, e1 ∈ [("E1".toList)] → e2 ∈ [("E1".toList)] → e1 ≠ e2 → ∀ K,
        (dget K ((dget e1 ((run_batches [] (initCaches [("E1".toList)])
          [⟨"E1".toList, "herbs".toList,
            [⟨"A".toList, [], [(⟨"ZoneA".toList, "2022".toList⟩, [⟨10, 20, 7⟩])],
              "401".toList⟩]⟩]).1)).getD [])).isSome →
        dget K ((dget e2 ((run_batches [] (initCaches [("E1".toList)])
          [⟨"E1".toList, "herbs".toList,
            [⟨"A".toList, [], [(⟨"ZoneA".toList, "2022".toList⟩, [⟨10, 20, 7⟩])],
              "401".toList⟩]⟩]).1)).getD []) = none)) ∧
    (run_batches
      (load_old_cache ([("E1".toList)].map (fun e =>
        (dget e ((run_batches [] (initCaches [("E1".toList)])
          [⟨"E1".toList, "herbs".toList,
            [⟨"A".toList, [], [(⟨"ZoneA".toList, "2022".toList⟩, [⟨10, 20, 7⟩])],
              "401".toList⟩]⟩]).1)).getD [])))
      (initCaches [("E1".toList)])
      [⟨"E1".toList, "herbs".toList,
        [⟨"A".toList, [], [(⟨"ZoneA".toList, "2022".toList⟩, [⟨10, 20, 7⟩])],
          "401".toList⟩]⟩]).2.2 = 0 :=
  ⟨⟨by decide, fun e1 e2 he1 he2 hne K => by
      simp only [List.mem_singleton] at he1 he2
      exact absurd (he1.trans he2.symm) hne⟩,
    C8_cache_novelty.2.2 [("E1".toList)] _ []
      (by decide)
      (fun e1 e2 he1 he2 hne K _ => by
        simp only [List.mem_singleton] at he1 he2
        exact absurd (he1.trans he2.symm) hne)⟩

/-- C10 counterexample: two same-zone same-type observations with DISTINCT
raw coordinates that encode to the same packed value 1000200000.  They do
collapse to a single cache entry (the later sourceId "402" wins), but the
serialized table does NOT carry distinct bumped coordinates: both entries
keep the same un-bumped packed value. -/
theorem C10_counterexample :
    snapLookup ((processNodes [] [] ("herbs".toList)
        [⟨"A".toList, [], [(⟨"ZoneA".toList, "2022".toList⟩, [⟨10, 20, 0⟩])], "401".toList⟩,
         ⟨"B".toList, [], [(⟨"ZoneA".toList, "2022".toList⟩, [⟨2501 / 250, 20, 0⟩])],
           "402".toList⟩]).1)
      ("2022_herbs".toList) (intStr 1000200000) = some ("402".toList) ∧
    ((Aggregate.ofObjects ("Herb".toList) ((processNodes [] [] ("herbs".toList)
        [⟨"A".toList, [], [(⟨"ZoneA".toList, "2022".toList⟩, [⟨10, 20, 0⟩])], "401".toList⟩,
         ⟨"B".toList, [], [(⟨"ZoneA".toList, "2022".toList⟩, [⟨2501 / 250, 20, 0⟩])],
           "402".toList⟩]).2.2.2)).zones).flatMap
      (fun gz => gz.entries.map (fun e => (coordVal e.coordinate, e.entry_id))) =
      [(1000200000, "401".toList), (1000200000, "402".toList)] := by
  have hp1 : packCoord 10 20 = 1000200000 := by norm_num [packCoord]
  have hp2 : packCoord (2501 / 250) 20 = 1000200000 := by norm_num [packCoord]
  constructor
  · rw [processNodes_snapLookup]
    have hws : ([(⟨"A".toList, [], [((⟨"ZoneA".toList, "2022".toList⟩ : Zone),
        [(⟨10, 20, 0⟩ : Coordinate)])], "401".toList⟩ : WowheadObject),
        ⟨"B".toList, [], [(⟨"ZoneA".toList, "2022".toList⟩, [⟨2501 / 250, 20, 0⟩])],
          "402".toList⟩].flatMap (nodeObs · ("herbs".toList))) =
        [("2022_herbs".toList, intStr (packCoord 10 20), "401".toList),
         ("2022_herbs".toList, intStr (packCoord (2501 / 250) 20), "402".toList)] := by
      show [("2022_herbs".toList, intStr (coordVal ⟨10, 20, 0⟩), "401".toList),
        ("2022_herbs".toList, intStr (coordVal ⟨2501 / 250, 20, 0⟩), "402".toList)] = _
      rfl
    rw [hws, hp1, hp2]
    rw [lastWrite_two_hit]
    rfl
  · have hmemo : ((processNodes [] [] ("herbs".toList)
        [⟨"A".toList, [], [(⟨"ZoneA".toList, "2022".toList⟩, [⟨10, 20, 0⟩])], "401".toList⟩,
         ⟨"B".toList, [], [(⟨"ZoneA".toList, "2022".toList⟩, [⟨2501 / 250, 20, 0⟩])],
           "402".toList⟩]).2.2.2) =
        [⟨"A".toList, [], [(⟨"ZoneA".toList, "2022".toList⟩, [⟨10, 20, packCoord 10 20⟩])],
          "401".toList⟩,
         ⟨"B".toList, [],
          [(⟨"ZoneA".toList, "2022".toList⟩, [⟨2501 / 250, 20, packCoord (2501 / 250) 20⟩])],
          "402".toList⟩] := rfl
    rw [hmemo, ofObjects_eq_aggregateObs]
    have hflat : ([⟨"A".toList, [], [((⟨"ZoneA".toList, "2022".toList⟩ : Zone),
        [(⟨10, 20, packCoord 10 20⟩ : Coordinate)])], "401".toList⟩,
        (⟨"B".toList, [],
          [(⟨"ZoneA".toList, "2022".toList⟩, [⟨2501 / 250, 20, packCoord (2501 / 250) 20⟩])],
          "402".toList⟩ : WowheadObject)].flatMap objObs) =
        [((⟨"ZoneA".toList, "2022".toList⟩ : Zone),
          (⟨⟨10, 20, packCoord 10 20⟩, "401".toList⟩ : GathererEntry)),
         (⟨"ZoneA".toList, "2022".toList⟩,
          ⟨⟨2501 / 250, 20, packCoord (2501 / 250) 20⟩, "402".toList⟩)] := rfl
    rw [hflat, hp1, hp2]
    rw [aggregateObs_two_diff _ _ _ _ _ (by
      simp only [ne_eq, Coordinate.mk.injEq, not_and]
      intro hx
      norm_num at hx)]
    have hv1 : coordVal ⟨(10 : ℚ), 20, 1000200000⟩ = 1000200000 := by
      rw [show ((1000200000 : ℤ)) = packCoord 10 20 from hp1.symm, coordVal_self_pack, hp1]
    have hv2 : coordVal ⟨(2501 / 250 : ℚ), 20, 1000200000⟩ = 1000200000 := by
      rw [show ((1000200000 : ℤ)) = packCoord (2501 / 250) 20 from hp2.symm,
        coordVal_self_pack, hp2]
    simp [hv1, hv2]

/-- C10 (amended): the cache phase runs before aggregation and keys every
record by the PRE-bump packed value: two same-zone same-type observations
of the identical raw position collapse to one cache entry (keyed by the
un-bumped packed text, later sourceId winning, and the bumped key absent
from the cache) while the aggregate built from the memoised nodes carries
one entry per observation with packed values p and p+1.  For observations
that are merely encode-equal from distinct raw coordinates the cache also
collapses, but the table keeps both entries with the SAME un-bumped packed
value (see the counterexample). -/
theorem C10_cache_prebump (z : Zone) (x y : ℚ) (nm1 nm2 : List Char)
    (ids1 ids2 : List (List Char)) (id1 id2 ty aggTy : List Char)
    (h : 0 ≤ packCoord x y) :
    snapLookup ((processNodes [] [] ty
        [⟨nm1, ids1, [(z, [⟨x, y, 0⟩])], id1⟩,
         ⟨nm2, ids2, [(z, [⟨x, y, 0⟩])], id2⟩]).1)
      (cacheKey z ty) (intStr (packCoord x y)) = some id2 ∧
    snapLookup ((processNodes [] [] ty
        [⟨nm1, ids1, [(z, [⟨x, y, 0⟩])], id1⟩,
         ⟨nm2, ids2, [(z, [⟨x, y, 0⟩])], id2⟩]).1)
      (cacheKey z ty) (intStr (packCoord x y + 1)) = none ∧
    (Aggregate.ofObjects aggTy ((processNodes [] [] ty
        [⟨nm1, ids1, [(z, [⟨x, y, 0⟩])], id1⟩,
         ⟨nm2, ids2, [(z, [⟨x, y, 0⟩])], id2⟩]).2.2.2)).zones =
      [⟨z, [⟨⟨x, y, packCoord x y⟩, id1⟩, ⟨⟨x, y, packCoord x y + 1⟩, id2⟩]⟩] := by
  have hik : intStr (packCoord x y) ≠ intStr (packCoord x y + 1) := by
    intro heq
    have := intStr_injective_of_nonneg h (by omega) heq
    omega
  have hws : ([(⟨nm1, ids1, [(z, [⟨x, y, 0⟩])], id1⟩ : WowheadObject),
      ⟨nm2, ids2, [(z, [⟨x, y, 0⟩])], id2⟩].flatMap (nodeObs · ty)) =
      [(cacheKey z ty, intStr (packCoord x y), id1),
       (cacheKey z ty, intStr (packCoord x y), id2)] := by
    show [(cacheKey z ty, intStr (coordVal ⟨x, y, 0⟩), id1),
      (cacheKey z ty, intStr (coordVal ⟨x, y, 0⟩), id2)] = _
    rfl
  refine ⟨?_, ?_, ?_⟩
  · rw [processNodes_snapLookup, hws, lastWrite_two_hit]
    rfl
  · rw [processNodes_snapLookup, hws,
      lastWrite_two_miss _ _ _ _ _ (fun hh => hik hh.symm)]
    rfl
  · have hmemo : ((processNodes [] [] ty
        [⟨nm1, ids1, [(z, [⟨x, y, 0⟩])], id1⟩,
         ⟨nm2, ids2, [(z, [⟨x, y, 0⟩])], id2⟩]).2.2.2) =
        [⟨nm1, ids1, [(z, [⟨x, y, packCoord x y⟩])], id1⟩,
         ⟨nm2, ids2, [(z, [⟨x, y, packCoord x y⟩])], id2⟩] := rfl
    rw [hmemo, ofObjects_eq_aggregateObs]
    have hflat : ([(⟨nm1, ids1, [(z, [⟨x, y, packCoord x y⟩])], id1⟩ : WowheadObject),
        ⟨nm2, ids2, [(z, [⟨x, y, packCoord x y⟩])], id2⟩].flatMap objObs) =
        [(z, (⟨⟨x, y, packCoord x y⟩, id1⟩ : GathererEntry)),
         (z, ⟨⟨x, y, packCoord x y⟩, id2⟩)] := rfl
    rw [hflat]
    rw [aggregateObs_two_same z ⟨x, y, packCoord x y⟩ id1 id2
      (by rw [coordVal_self_pack]; exact h)]
    have hb : bumpCoord ⟨x, y, packCoord x y⟩ = ⟨x, y, packCoord x y + 1⟩ := by
      unfold bumpCoord
      rw [coordVal_self_pack]
    rw [hb]

/-- C10 witness: a concrete identical pair at `x=10, y=20`. -/
theorem C10_cache_prebump_check :
    (0 : ℤ) ≤ packCoord 10 20 ∧
    (snapLookup ((processNodes [] [] ("herbs".toList)
        [⟨"A".toList, [], [(⟨"ZoneA".toList, "2022".toList⟩, [⟨10, 20, 0⟩])], "401".toList⟩,
         ⟨"B".toList, [], [(⟨"ZoneA".toList, "2022".toList⟩, [⟨10, 20, 0⟩])],
           "402".toList⟩]).1)
      (cacheKey ⟨"ZoneA".toList, "2022".toList⟩ ("herbs".toList))
      (intStr (packCoord 10 20)) = some ("402".toList) ∧
    snapLookup ((processNodes [] [] ("herbs".toList)
        [⟨"A".toList, [], [(⟨"ZoneA".toList, "2022".toList⟩, [⟨10, 20, 0⟩])], "401".toList⟩,
         ⟨"B".toList, [], [(⟨"ZoneA".toList, "2022".toList⟩, [⟨10, 20, 0⟩])],
           "402".toList⟩]).1)
      (cacheKey ⟨"ZoneA".toList, "2022".toList⟩ ("herbs".toList))
      (intStr (packCoord 10 20 + 1)) = none ∧
    (Aggregate.ofObjects ("Herb".toList) ((processNodes [] [] ("herbs".toList)
        [⟨"A".toList, [], [(⟨"ZoneA".toList, "2022".toList⟩, [⟨10, 20, 0⟩])], "401".toList⟩,
         ⟨"B".toList, [], [(⟨"ZoneA".toList, "2022".toList⟩, [⟨10, 20, 0⟩])],
           "402".toList⟩]).2.2.2)).zones =
      [⟨⟨"ZoneA".toList, "2022".toList⟩,
        [⟨⟨10, 20, packCoord 10 20⟩, "401".toList⟩,
         ⟨⟨10, 20, packCoord 10 20 + 1⟩, "402".toList⟩]⟩]) :=
  ⟨by norm_num [packCoord],
    C10_cache_prebump ⟨"ZoneA".toList, "2022".toList⟩ 10 20 ("A".toList) ("B".toList)
      [] [] ("401".toList) ("402".toList) ("herbs".toList) ("Herb".toList)
      (by norm_num [packCoord])⟩

/-- C4 counterexample: a persisted document whose settings section holds a
nested table whose inner close brace is followed directly by a newline.
The lazy settings pattern `GatherMate2DB\s*=\s*{.*?}\s*\n` stops at that
inner brace, so the merge output carries only a TRUNCATED settings
section: the document's settings blob does not appear byte-for-byte in
the output (the output is even shorter than the blob). -/
theorem C4_counterexample :
    merge_gathermate_data ("GatherMate2DB = \x7b\n[1] = \x7b\n\x7d\n\x7d\n".toList)
        [] [] [] [] =
      some ("GatherMate2DB = \x7b\n[1] = \x7b\n\x7d\n".toList) ∧
    ¬ ∃ u w, ("GatherMate2DB = \x7b\n[1] = \x7b\n\x7d\n".toList) =
        u ++ ("GatherMate2DB = \x7b\n[1] = \x7b\n\x7d\n\x7d\n".toList) ++ w := by
  constructor
  · decide
  · rintro ⟨u, w, hcontra⟩
    have hlen := congrArg List.length hcontra
    rw [List.length_append, List.length_append] at hlen
    have h1 : ("GatherMate2DB = \x7b\n[1] = \x7b\n\x7d\n".toList).length <
        ("GatherMate2DB = \x7b\n[1] = \x7b\n\x7d\n\x7d\n".toList).length := by decide
    omega

/-- C4 (amended): whatever section the settings pattern matches — from
`GatherMate2DB = {` through the first `}` whose following whitespace run
holds a newline — is carried verbatim as a PREFIX of the merge output;
when no section matches, the minimal empty settings section
`GatherMate2DB = {\n}\n` is synthesized as that prefix.  For settings
whose inner close braces are all followed by commas (as WoW saved
variables are), the matched section is the whole blob; a nested close
brace followed directly by a newline truncates it (see counterexample). -/
theorem C4_settings_carried (ex : List Char) (h o f t : LuaTable) (out : List Char)
    (hm : merge_gathermate_data ex h o f t = some out) :
    ∃ rest, out =
      (match findSettings ex with
       | some s => s
       | none => ("GatherMate2DB = \x7b\n\x7d\n".toList)) ++ rest := by
  unfold merge_gathermate_data at hm
  obtain ⟨mh, hmh, hm⟩ := Option.bind_eq_some.mp hm
  obtain ⟨mo, hmo, hm⟩ := Option.bind_eq_some.mp hm
  obtain ⟨mf, hmf, hm⟩ := Option.bind_eq_some.mp hm
  simp only [] at hm
  by_cases ht : t = []
  · rw [if_pos ht] at hm
    obtain ⟨mt, hmt, hm⟩ := Option.bind_eq_some.mp hm
    obtain ⟨ph, hph, hm⟩ := Option.bind_eq_some.mp hm
    obtain ⟨po, hpo, hm⟩ := Option.bind_eq_some.mp hm
    obtain ⟨pf, hpf, hm⟩ := Option.bind_eq_some.mp hm
    obtain ⟨pt, hpt, hm⟩ := Option.bind_eq_some.mp hm
    have hout : joinNl ((match findSettings ex with
        | some s => s
        | none => ("GatherMate2DB = \x7b\n\x7d\n".toList)) :: (ph ++ po ++ pf ++ pt)) = out :=
      Option.some.inj hm
    rw [← hout]
    exact joinNl_head _ _
  · rw [if_neg ht] at hm
    obtain ⟨mt, hmt, hm⟩ := Option.bind_eq_some.mp hm
    obtain ⟨ph, hph, hm⟩ := Option.bind_eq_some.mp hm
    obtain ⟨po, hpo, hm⟩ := Option.bind_eq_some.mp hm
    obtain ⟨pf, hpf, hm⟩ := Option.bind_eq_some.mp hm
    obtain ⟨pt, hpt, hm⟩ := Option.bind_eq_some.mp hm
    have hout : joinNl ((match findSettings ex with
        | some s => s
        | none => ("GatherMate2DB = \x7b\n\x7d\n".toList)) :: (ph ++ po ++ pf ++ pt)) = out :=
      Option.some.inj hm
    rw [← hout]
    exact joinNl_head _ _

/-- C4 witness: a concrete merge where the matched settings section is the
output's prefix. -/
theorem C4_settings_carried_check :
    merge_gathermate_data
        ("GatherMate2DB = \x7b\n\x7d\nGatherMate2HerbDB = \x7b\n[1] = \x7b\n[100] = 5,\n\x7d,\n\x7d".toList)
        [] [] [] [] =
      some ("GatherMate2DB = \x7b\n\x7d\n\nGatherMate2HerbDB = \x7b\n[1] = \x7b\n[100] = 5,\n\x7d,\n\x7d".toList) ∧
    (∃ rest,
      ("GatherMate2DB = \x7b\n\x7d\n\nGatherMate2HerbDB = \x7b\n[1] = \x7b\n[100] = 5,\n\x7d,\n\x7d".toList) =
      (match findSettings
          ("GatherMate2DB = \x7b\n\x7d\nGatherMate2HerbDB = \x7b\n[1] = \x7b\n[100] = 5,\n\x7d,\n\x7d".toList) with
       | some s => s
       | none => ("GatherMate2DB = \x7b\n\x7d\n".toList)) ++ rest) :=
  ⟨by decide,
    C4_settings_carried
      ("GatherMate2DB = \x7b\n\x7d\nGatherMate2HerbDB = \x7b\n[1] = \x7b\n[100] = 5,\n\x7d,\n\x7d".toList)
      [] [] [] []
      ("GatherMate2DB = \x7b\n\x7d\n\nGatherMate2HerbDB = \x7b\n[1] = \x7b\n[100] = 5,\n\x7d,\n\x7d".toList)
      (by decide)⟩

/-- C5 counterexample: merging a document against empty new tables for
every category does NOT return the document: `"\n".join` inserts a
separator after the settings section (which already ends in a newline),
so the output gains a blank line the input never had. -/
theorem C5_counterexample :
    merge_gathermate_data
        ("GatherMate2DB = \x7b\n\x7d\nGatherMate2HerbDB = \x7b\n[1] = \x7b\n[100] = 5,\n\x7d,\n\x7d".toList)
        [] [] [] [] =
      some ("GatherMate2DB = \x7b\n\x7d\n\nGatherMate2HerbDB = \x7b\n[1] = \x7b\n[100] = 5,\n\x7d,\n\x7d".toList) ∧
    some ("GatherMate2DB = \x7b\n\x7d\n\nGatherMate2HerbDB = \x7b\n[1] = \x7b\n[100] = 5,\n\x7d,\n\x7d".toList) ≠
      some ("GatherMate2DB = \x7b\n\x7d\nGatherMate2HerbDB = \x7b\n[1] = \x7b\n[100] = 5,\n\x7d,\n\x7d".toList) := by
  constructor
  · decide
  · decide

/-- C5 (amended): merging empty new tables changes no category content:
`merge_db E {} = E` for every parsed table, and (at a concrete document)
the output's herb section parses back to exactly the input's herb
section.  The output document text, however, is a re-serialization and
need not be byte-identical to the input (section separators are
normalized; see the counterexample). -/
theorem C5_merge_empty_structural :
    (∀ E : MixedTable, merge_db E [] = some E) ∧
    parse_lua_table ((findDb ("GatherMate2HerbDB".toList)
        ("GatherMate2DB = \x7b\n\x7d\n\nGatherMate2HerbDB = \x7b\n[1] = \x7b\n[100] = 5,\n\x7d,\n\x7d".toList)).getD []) =
      parse_lua_table ((findDb ("GatherMate2HerbDB".toList)
        ("GatherMate2DB = \x7b\n\x7d\nGatherMate2HerbDB = \x7b\n[1] = \x7b\n[100] = 5,\n\x7d,\n\x7d".toList)).getD []) := by
  constructor
  · intro E
    rfl
  · decide

/-- C6: `merge_db` override — merging `{zone: {coord: newId}}` writes
`newId` at exactly that coordinate and leaves every other (zone,
coordinate) value of the existing parsed table unchanged.  (A zone whose
existing entry is a plain number makes the Python `dict.update` raise;
that degenerate shape is excluded by hypothesis.) -/
theorem C6_merge_override (existing : MixedTable) (z c v : ℕ)
    (hz : (∃ d, dget z existing = some (LuaField.tbl d)) ∨ dget z existing = none) :
    ∃ M, merge_db existing [(z, [(c, v)])] = some M ∧
      mixedLookup z c M = some v ∧
      (∀ z2 c2, ¬(z2 = z ∧ c2 = c) → mixedLookup z2 c2 M = mixedLookup z2 c2 existing) := by
  rcases hz with ⟨d, hd⟩ | hd
  · refine ⟨dset z (LuaField.tbl (dset c v d)) existing, ?_, ?_, ?_⟩
    · rw [merge_db_cons, hd]
      rfl
    · rw [mixedLookup_some_tbl z c _ (dset c v d) (dget_dset_same z _ existing)]
      exact dget_dset_same c v d
    · intro z2 c2 hne
      by_cases hz2 : z2 = z
      · subst hz2
        have hc2 : c2 ≠ c := fun hh => hne ⟨rfl, hh⟩
        rw [mixedLookup_some_tbl z2 c2 _ (dset c v d) (dget_dset_same z2 _ existing),
            mixedLookup_some_tbl z2 c2 existing d hd]
        exact dget_dset_other c c2 v d hc2
      · unfold mixedLookup
        rw [dget_dset_other z z2 _ existing hz2]
  · refine ⟨existing ++ [(z, LuaField.tbl [(c, v)])], ?_, ?_, ?_⟩
    · rw [merge_db_cons, hd]
      rfl
    · have hg : dget z (existing ++ [(z, LuaField.tbl [(c, v)])]) =
          some (LuaField.tbl [(c, v)]) := by
        rw [dget_append, hd]
        show (if z = z then some (LuaField.tbl [(c, v)]) else none) = _
        rw [if_pos rfl]
      rw [mixedLookup_some_tbl z c _ [(c, v)] hg]
      show (if c = c then some v else none) = some v
      rw [if_pos rfl]
    · intro z2 c2 hne
      by_cases hz2 : z2 = z
      · subst hz2
        have hc2 : c2 ≠ c := fun hh => hne ⟨rfl, hh⟩
        have hg : dget z2 (existing ++ [(z2, LuaField.tbl [(c, v)])]) =
            some (LuaField.tbl [(c, v)]) := by
          rw [dget_append, hd]
          show (if z2 = z2 then some (LuaField.tbl [(c, v)]) else none) = _
          rw [if_pos rfl]
        rw [mixedLookup_some_tbl z2 c2 _ [(c, v)] hg,
            mixedLookup_none_of_dget z2 c2 existing hd]
        show (if c = c2 then some v else none) = none
        rw [if_neg (fun hh => hc2 hh.symm)]
      · have hg : dget z2 (existing ++ [(z, LuaField.tbl [(c, v)])]) = dget z2 existing := by
          rw [dget_append]
          show (dget z2 existing).or (if z = z2 then some (LuaField.tbl [(c, v)]) else none) = _
          rw [if_neg (fun hh => hz2 hh.symm), Option.or_none]
        unfold mixedLookup
        rw [hg]

/-- C6 witness at a concrete parsed table. -/
theorem C6_merge_override_check :
    ((∃ d, dget 1 ([(1, LuaField.tbl [(100, 5)])] : MixedTable) = some (LuaField.tbl d)) ∨
      dget 1 ([(1, LuaField.tbl [(100, 5)])] : MixedTable) = none) ∧
    (∃ M, merge_db [(1, LuaField.tbl [(100, 5)])] [(1, [(100, 9)])] = some M ∧
      mixedLookup 1 100 M = some 9 ∧
      (∀ z2 c2, ¬(z2 = 1 ∧ c2 = 100) →
        mixedLookup z2 c2 M = mixedLookup z2 c2 [(1, LuaField.tbl [(100, 5)])])) :=
  ⟨Or.inl ⟨[(100, 5)], rfl⟩,
    C6_merge_override [(1, LuaField.tbl [(100, 5)])] 1 100 9 (Or.inl ⟨[(100, 5)], rfl⟩)⟩

/-- C7: serializer round trip.  For every category table and every
bracket-free table name (all real names are `GatherMate2...DB`), parsing
the serialized text recovers exactly the original table as a dict: a zone
id maps to a (table-valued) field iff it did in the input, and that
field's coordinate dict agrees with the input zone's at every coordinate
key.  This is Python's structural `==` on nested dicts. -/
theorem C7_round_trip (T : LuaTable) (name : List Char)
    (hname : ∀ ch ∈ name, ¬ch = Char.ofNat 91) :
    ∀ z, (match dget z T with
      | none => dget z (parse_lua_table (serialize_lua_table T name)) = none
      | some zd => ∃ d, dget z (parse_lua_table (serialize_lua_table T name)) =
          some (LuaField.tbl d) ∧ ∀ c, dget c d = dget c zd) := by
  intro z
  have hp := parse_serialize T name hname z
  cases hdz : dget z T with
  | none =>
    have hz : z ∉ dkeys T := by
      intro hmem
      obtain ⟨v, hv⟩ := dget_isSome_of_mem hmem
      rw [hdz] at hv
      cases hv
    have hs : z ∉ sortedKeys T := fun hmem =>
      hz ((List.perm_insertionSort (· ≤ ·) (T.map Prod.fst)).mem_iff.mp hmem)
    rw [if_neg hs] at hp
    exact hp
  | some zd =>
    have hz : z ∈ dkeys T := mem_dkeys_of_dget_some hdz
    have hs : z ∈ sortedKeys T :=
      (List.perm_insertionSort (· ≤ ·) (T.map Prod.fst)).mem_iff.mpr hz
    rw [if_pos hs] at hp
    refine ⟨innerParse (innerText (zonePairs ((dget z T).getD []))), hp, ?_⟩
    intro c
    rw [innerParse_innerText ((dget z T).getD []) c, hdz]
    rfl

/-- C7 witness: a two-zone table with two coordinates round-trips through
the real table name. -/
theorem C7_round_trip_check :
    (∀ ch ∈ ("GatherMate2HerbDB".toList), ¬ch = Char.ofNat 91) ∧
    (match dget 5 ([(5, [(100, 7), (3, 9)]), (2, [])] : LuaTable) with
      | none => dget 5 (parse_lua_table (serialize_lua_table
          [(5, [(100, 7), (3, 9)]), (2, [])] ("GatherMate2HerbDB".toList))) = none
      | some zd => ∃ d, dget 5 (parse_lua_table (serialize_lua_table
          [(5, [(100, 7), (3, 9)]), (2, [])] ("GatherMate2HerbDB".toList))) =
          some (LuaField.tbl d) ∧ ∀ c, dget c d = dget c zd) :=
  ⟨by decide,
    C7_round_trip [(5, [(100, 7), (3, 9)]), (2, [])] ("GatherMate2HerbDB".toList) (by decide) 5⟩

/-- C2 witness: a concrete three-observation run with distinct coordinate
records per zone and a sorted serialization order. -/
theorem C2_zone_invariant_check :
    (∀ p ∈ [((⟨"A".toList, "2".toList⟩ : Zone), (⟨⟨10, 20, 7⟩, "401".toList⟩ : GathererEntry)),
        (⟨"A".toList, "2".toList⟩, ⟨⟨10, 20, 7⟩, "402".toList⟩),
        (⟨"A".toList, "2".toList⟩, ⟨⟨3, 4, 9⟩, "403".toList⟩)], 0 ≤ coordVal p.2.coordinate) ∧
    (∀ gz ∈ aggregateObs
        [((⟨"A".toList, "2".toList⟩ : Zone), (⟨⟨10, 20, 7⟩, "401".toList⟩ : GathererEntry)),
         (⟨"A".toList, "2".toList⟩, ⟨⟨10, 20, 7⟩, "402".toList⟩),
         (⟨"A".toList, "2".toList⟩, ⟨⟨3, 4, 9⟩, "403".toList⟩)],
      (gz.entries.map (·.coordinate)).Nodup) ∧
    List.Sorted (· ≤ ·)
      ((GathererZone.sortedEntries ⟨⟨"A".toList, "2".toList⟩,
        [⟨⟨10, 20, 9⟩, "401".toList⟩, ⟨⟨3, 4, 7⟩, "402".toList⟩]⟩).map
        (fun e => coordVal e.coordinate)) :=
  ⟨by decide,
    C2_zone_invariant.1 _ (by decide),
    C2_zone_invariant.2 _⟩

end GatherMate

